import Mathlib

/-!
Verification of the shard core orchestration engine.

Shallow embedding of the core components of the shard runtime:
the tool dispatcher (`packages/core/src/agent/tool-executor.ts`),
the typed event bus (`packages/core/src/event-bus.ts`),
the agent loop (`packages/core/src/agent/loop.ts`),
the plugin registry (`packages/core/src/plugin-registry.ts`),
and the package manager (`packages/core/src/package-manager.ts`).

Conventions of the embedding:
* JavaScript numbers that only ever hold token counts are `Nat`;
  wall-clock times and exit codes are `Int`.
* A JS `async` function that may reject is embedded as a function into
  `Except String A`; the error carries the thrown message.
* A JS `Map` is an association list; `mapSet` mirrors `Map.set`
  (replace in place on an existing key, append on a fresh key) and
  `mapGet` mirrors `Map.get`.
* External collaborators (model provider, tool implementations, event
  handlers, the file system and package tooling reached by the package
  manager) are oracles passed in as function parameters.
-/

/-- Embeds `Map.get`: first binding of the key, if any. -/
def mapGet {α : Type} (m : List (String × α)) (k : String) : Option α :=
  match m with
  | [] => none
  | (k1, v) :: rest => if k1 = k then some v else mapGet rest k

/-- Embeds `Map.set`: replace the value in place if the key is bound, else append. -/
def mapSet {α : Type} (m : List (String × α)) (k : String) (v : α) : List (String × α) :=
  match m with
  | [] => [(k, v)]
  | (k1, v1) :: rest => if k1 = k then (k, v) :: rest else (k1, v1) :: mapSet rest k v

/-- Keys of an association list, in map iteration order. -/
def mapKeys {α : Type} (m : List (String × α)) : List String :=
  m.map (fun e => e.1)



/-! ## Data model (`packages/sdk/src/model.ts`, `plugin.ts`) -/

/-- Embeds `TokenUsage` from the SDK. -/
structure TokenUsage where
  promptTokens : Nat
  completionTokens : Nat
  totalTokens : Nat
deriving DecidableEq

/-- Component-wise addition, as performed by the agent loop accumulator. -/
def addUsage (a b : TokenUsage) : TokenUsage :=
  { promptTokens := a.promptTokens + b.promptTokens
    completionTokens := a.completionTokens + b.completionTokens
    totalTokens := a.totalTokens + b.totalTokens }

def zeroUsage : TokenUsage := ⟨0, 0, 0⟩

/-- Embeds `ToolCall`: the argument record is kept opaque as a string. -/
structure ToolCall where
  id : String
  name : String
  args : String
deriving DecidableEq

/-- Embeds `ChatMessage`. -/
structure ChatMessage where
  role : String
  content : String
  toolCalls : Option (List ToolCall) := none
  toolCallId : Option String := none
deriving DecidableEq

/-- Embeds `ChatResponse` of a model provider. -/
structure ChatResponse where
  message : ChatMessage
  usage : TokenUsage
  finishReason : String
deriving DecidableEq

/-- Embeds `ToolResult` (artifacts and metadata elided; no claim mentions them). -/
structure ToolResult where
  success : Bool
  output : String
deriving DecidableEq

/-- Embeds `ToolDefinition`: the JSON parameter schema is kept opaque. -/
structure ToolDefinition where
  name : String
  description : String
  parameters : String
deriving DecidableEq

/-- Embeds `ToolContext` passed by the loop to the executor. -/
structure ToolContext where
  toolCallId : String
  agentId : Option String := none
  channelId : Option String := none
deriving DecidableEq

/-- Embeds `AgentDefinition` (description, strategy and subAgents elided). -/
structure AgentDefinition where
  id : String
  name : String
  systemPrompt : String
  model : String
  tools : Option (List String) := none
  maxTurns : Option Nat := none

/-- Embeds `AgentContext`. -/
structure AgentContext where
  agentId : String
  channelId : Option String := none

/-- Metadata of an `AgentResult`; absent JS fields are `none` / `false`. -/
structure AgentMetadata where
  usage : TokenUsage
  turns : Option Nat := none
  maxTurnsReached : Bool := false
  error : Option String := none
deriving DecidableEq

/-- Embeds `AgentResult`. -/
structure AgentResult where
  output : String
  metadata : AgentMetadata
deriving DecidableEq

/-! ## Tool executor (`packages/core/src/agent/tool-executor.ts`)

A registered tool is its definition data plus its `execute` behaviour,
an oracle that may throw. -/

/-- A tool as held by the executor: contract data plus `execute` behaviour. -/
structure ToolRT where
  name : String
  description : String
  parameters : String
  behav : String → ToolContext → Except String ToolResult

/-- The constructor loop: `for (tool of tools) this.toolMap.set(tool.name, tool)`. -/
def buildToolMap (tools : List ToolRT) : List (String × ToolRT) :=
  tools.foldl (fun m t => mapSet m t.name t) []

/-- Embeds `ToolExecutor.execute`.  The `Except` return type mirrors the `async`
signature; every throw of the underlying tool is caught in the body, so
the body only ever builds `Except.ok`. -/
def executeTool (tmap : List (String × ToolRT)) (toolCall : ToolCall)
    (context : ToolContext) : Except String ToolResult :=
  match mapGet tmap toolCall.name with
  | none => Except.ok { success := false, output := "Unknown tool: " ++ toolCall.name }
  | some tool =>
    match tool.behav toolCall.args context with
    | Except.ok r => Except.ok r
    | Except.error msg => Except.ok { success := false, output := "Tool error: " ++ msg }

/-- Embeds `ToolExecutor.getDefinitions`. -/
def getDefinitions (tmap : List (String × ToolRT)) (allowedTools : Option (List String)) :
    List ToolDefinition :=
  let tools : List ToolRT := match allowedTools with
    | some names => names.filterMap (fun n => mapGet tmap n)
    | none => tmap.map (fun e => e.2)
  tools.map (fun t =>
    { name := t.name, description := t.description, parameters := t.parameters })

/-! ## Event bus (`packages/core/src/event-bus.ts`)

Handlers are identified by natural numbers; what a handler does when
invoked is an oracle `behav` mapping the handler id and its argument
list to a possibly-throwing outcome.  A named handler is applied to
`[payload]`, a wildcard handler to `[event, payload]`, exactly as in
`handler(payload)` versus `handler(key, payload)`. -/

/-- JS `Set.add`: append if absent (insertion order preserved). -/
def setAdd (l : List Nat) (h : Nat) : List Nat :=
  if h ∈ l then l else l ++ [h]

/-- JS `Set.delete`. -/
def setDel (l : List Nat) (h : Nat) : List Nat :=
  l.filter (fun x => x ≠ h)

/-- State of a `TypedEventBus`. -/
structure Bus where
  handlers : List (String × List Nat)
  wildcardHandlers : List Nat

def emptyBus : Bus := ⟨[], []⟩

/-- Embeds `TypedEventBus.on`. -/
def busOn (b : Bus) (event : String) (h : Nat) : Bus :=
  let cur := (mapGet b.handlers event).getD []
  { b with handlers := mapSet b.handlers event (setAdd cur h) }

/-- Embeds `TypedEventBus.off`: `this.handlers.get(key)?.delete(handler)`. -/
def busOff (b : Bus) (event : String) (h : Nat) : Bus :=
  match mapGet b.handlers event with
  | none => b
  | some l => { b with handlers := mapSet b.handlers event (setDel l h) }

/-- Embeds `TypedEventBus.onAny`. -/
def busOnAny (b : Bus) (h : Nat) : Bus :=
  { b with wildcardHandlers := setAdd b.wildcardHandlers h }

/-- One observed handler invocation: which handler, with which arguments. -/
structure Invocation where
  hid : Nat
  args : List String
deriving DecidableEq

/-- Run a sequence of handler invocations strictly in order; each throw is
caught and logged per handler and never stops the iteration. -/
def runHandlerSeq (behav : Nat → List String → Except String Unit) :
    List Invocation → List Invocation × List String
  | [] => ([], [])
  | inv :: rest =>
    let logHere : List String := match behav inv.hid inv.args with
      | Except.ok _ => []
      | Except.error msg => ["Error in event handler: " ++ msg]
    let out := runHandlerSeq behav rest
    (inv :: out.1, logHere ++ out.2)

/-- Embeds `TypedEventBus.emit`: named handlers for the exact event first, then
wildcard handlers.  The `Except` return type mirrors the `async`
signature; every handler throw is caught in the body, so the body only
ever builds `Except.ok (trace, logs)`. -/
def busEmit (behav : Nat → List String → Except String Unit) (b : Bus)
    (event payload : String) : Except String (List Invocation × List String) :=
  let named := ((mapGet b.handlers event).getD []).map (fun h => Invocation.mk h [payload])
  let wild := b.wildcardHandlers.map (fun h => Invocation.mk h [event, payload])
  let outN := runHandlerSeq behav named
  let outW := runHandlerSeq behav wild
  Except.ok (outN.1 ++ outW.1, outN.2 ++ outW.2)

/-! ## Package manager (`packages/core/src/package-manager.ts`)

The file system, module resolution, `Date.now()` and the spawned
`bun add` processes are an oracle world `PMWorld`.  Alongside the
`SyncResult`, `sync` reports its observable effects: which batched
install / update invocations it issued and whether a fresh update-state
timestamp was written. -/

/-- Embeds `SyncResult`. -/
structure SyncResult where
  installed : List String
  alreadyInstalled : List String
  failed : List String
  updated : List String
  skippedUpdate : Bool
deriving DecidableEq

/-- Embeds `SyncOptions` (fields that only route paths to the oracles elided). -/
structure SyncOptions where
  autoUpdate : Option Bool := none
  updateIntervalHours : Option Int := none
  statePath : Option String := none

/-- Oracle for the package manager's environment. -/
structure PMWorld where
  resolves : String → Bool
  installExitCode : Int
  updateExitCode : Int
  stateExists : Bool
  readState : Except String (Option Int)
  now : Int
  writeFails : Bool

/-- Observable side effects of one `sync` run. -/
structure SyncEffects where
  installInvoked : Option (List String) := none
  updateInvoked : Option (List String) := none
  writeAttempted : Bool := false
  persisted : Option Int := none
deriving DecidableEq

/-- Embeds `PackageManager.shouldUpdate`: a missing path, missing file or
unreadable state means "update due"; otherwise compare elapsed time
against the interval (clamped at zero) in milliseconds. -/
def shouldUpdate (w : PMWorld) (statePath : Option String) (intervalHours : Int) : Bool :=
  match statePath with
  | none => true
  | some _ =>
    if !w.stateExists then true
    else
      match w.readState with
      | Except.error _ => true
      | Except.ok lu =>
        let lastUpdated := lu.getD 0
        let intervalMs := max 0 intervalHours * 60 * 60 * 1000
        decide (w.now - lastUpdated ≥ intervalMs)

/-- Embeds `PackageManager.updatePackages`: one batched `bun add pkg@latest ...`
call; a non-zero exit yields no updated packages (logged, not thrown). -/
def updatePackages (w : PMWorld) (packages : List String) : List String × Option (List String) :=
  if packages.isEmpty then ([], none)
  else if w.updateExitCode = 0 then (packages, some packages)
  else ([], some packages)

/-- Embeds `PackageManager.writeUpdateState`: write failures are caught and
logged; reports whether a timestamp was durably written. -/
def writeUpdateState (w : PMWorld) (timestamp : Int) : Option Int :=
  if w.writeFails then none else some timestamp

/-- Embeds `PackageManager.sync`. -/
def sync (packageNames : List String) (options : SyncOptions) (w : PMWorld) :
    SyncResult × SyncEffects :=
  if packageNames.isEmpty then
    ({ installed := [], alreadyInstalled := [], failed := [], updated := [],
       skippedUpdate := true }, {})
  else
    let alreadyInstalled := packageNames.filter (fun pkg => w.resolves pkg)
    let missing := packageNames.filter (fun pkg => !w.resolves pkg)
    let installEff : Option (List String) :=
      if missing.isEmpty then none else some missing
    let installed := if missing.isEmpty then []
      else if w.installExitCode = 0 then missing else []
    let failed := if missing.isEmpty then []
      else if w.installExitCode = 0 then [] else missing
    let autoUpdate := options.autoUpdate.getD false
    if autoUpdate then
      let updateIntervalHours := options.updateIntervalHours.getD 24
      if shouldUpdate w options.statePath updateIntervalHours then
        let upd := updatePackages w packageNames
        let persisted : Option Int := match options.statePath with
          | some _ => writeUpdateState w w.now
          | none => none
        ({ installed := installed, alreadyInstalled := alreadyInstalled,
           failed := failed, updated := upd.1, skippedUpdate := false },
         { installInvoked := installEff, updateInvoked := upd.2,
           writeAttempted := options.statePath.isSome, persisted := persisted })
      else
        ({ installed := installed, alreadyInstalled := alreadyInstalled,
           failed := failed, updated := [], skippedUpdate := true },
         { installInvoked := installEff })
    else
      ({ installed := installed, alreadyInstalled := alreadyInstalled,
         failed := failed, updated := [], skippedUpdate := true },
       { installInvoked := installEff })

/-! ## Agent loop (`packages/core/src/agent/loop.ts`)

The model provider is an oracle `chat`; the event bus is reached through
`emitE`, an oracle keyed by the event name (the emitted payloads never
feed back into the loop, so they are elided); the tool executor is the
concrete `executeTool` over a tool map whose tools have oracle
behaviours.  Besides the result, the loop reports the number of model
calls issued and the list of successful model responses, in order. -/

/-- Embeds `ChatRequest` as assembled by the loop (temperature/maxTokens unused). -/
structure ChatRequest where
  model : String
  messages : List ChatMessage
  tools : Option (List ToolDefinition)

/-- The result built by the single top-level `catch` of `run`. -/
def errResult (msg : String) (usage : TokenUsage) : AgentResult :=
  { output := "", metadata := { usage := usage, error := some msg } }

/-- Embeds `[...messages].reverse().find((m) => m.role === "assistant")?.content ?? ""`. -/
def lastAssistantContent (messages : List ChatMessage) : String :=
  match messages.reverse.find? (fun m => m.role == "assistant") with
  | some m => m.content
  | none => ""

/-- Accumulate usages of a list of responses on top of `u`. -/
def sumUsage (u : TokenUsage) (rs : List ChatResponse) : TokenUsage :=
  rs.foldl (fun a r => addUsage a r.usage) u

/-- The inner `for (const toolCall of toolCalls)` loop: strictly
sequential tool execution, each output appended as a tool-role message. -/
def runToolCalls (emitE : String → Except String Unit)
    (tmap : List (String × ToolRT)) (context : AgentContext) :
    List ToolCall → List ChatMessage → Except String (List ChatMessage)
  | [], messages => Except.ok messages
  | toolCall :: rest, messages =>
    match emitE "agent:tool:call" with
    | Except.error e => Except.error e
    | Except.ok _ =>
      match executeTool tmap toolCall
          { toolCallId := toolCall.id, agentId := some context.agentId,
            channelId := context.channelId } with
      | Except.error e => Except.error e
      | Except.ok toolResult =>
        runToolCalls emitE tmap context rest
          (messages ++ [{ role := "tool", content := toolResult.output,
                          toolCallId := some toolCall.id }])

/-- The `for (let turn = 0; turn < maxTurns; turn++)` loop, recursing on
the remaining turn budget (`turn = maxTurns - remaining - 1`).  Every
failure inside the body lands in the top-level catch, which yields
`errResult` with the usage accumulated so far. -/
def loopGo (chat : ChatRequest → Except String ChatResponse)
    (emitE : String → Except String Unit) (tmap : List (String × ToolRT))
    (context : AgentContext) (defn : AgentDefinition)
    (toolDefs : List ToolDefinition) (maxTurns : Nat) :
    Nat → List ChatMessage → TokenUsage → AgentResult × Nat × List ChatResponse
  | 0, messages, totalUsage =>
    let result : AgentResult :=
      { output := lastAssistantContent messages
        metadata := { usage := totalUsage, turns := some maxTurns, maxTurnsReached := true } }
    (match emitE "agent:run:complete" with
     | Except.error e => errResult e totalUsage
     | Except.ok _ => result, 0, [])
  | remaining + 1, messages, totalUsage =>
    match chat { model := defn.model, messages := messages,
                 tools := if toolDefs.length > 0 then some toolDefs else none } with
    | Except.error e => (errResult e totalUsage, 1, [])
    | Except.ok response =>
      let totalUsage1 := addUsage totalUsage response.usage
      let messages1 := messages ++ [response.message]
      match emitE "agent:turn" with
      | Except.error e => (errResult e totalUsage1, 1, [response])
      | Except.ok _ =>
        if response.finishReason ≠ "tool_calls" then
          (match emitE "agent:run:complete" with
           | Except.error e => errResult e totalUsage1
           | Except.ok _ =>
             { output := response.message.content
               metadata := { usage := totalUsage1, turns := some (maxTurns - remaining) } },
           1, [response])
        else
          match runToolCalls emitE tmap context (response.message.toolCalls.getD []) messages1 with
          | Except.error e => (errResult e totalUsage1, 1, [response])
          | Except.ok messages2 =>
            let out := loopGo chat emitE tmap context defn toolDefs maxTurns
              remaining messages2 totalUsage1
            (out.1, out.2.1 + 1, response :: out.2.2)

/-- Embeds `AgentLoop.run`.  The `agent:run:start` emit happens before the
`try`, so only a rejection there can escape to the caller. -/
def agentRun (chat : ChatRequest → Except String ChatResponse)
    (emitE : String → Except String Unit) (tmap : List (String × ToolRT))
    (defn : AgentDefinition) (input : String) (context : AgentContext) :
    Except String AgentResult × Nat × List ChatResponse :=
  let maxTurns := defn.maxTurns.getD 10
  let toolDefs := getDefinitions tmap defn.tools
  let messages : List ChatMessage :=
    [{ role := "system", content := defn.systemPrompt },
     { role := "user", content := input }]
  match emitE "agent:run:start" with
  | Except.error e => (Except.error e, 0, [])
  | Except.ok _ =>
    let out := loopGo chat emitE tmap context defn toolDefs maxTurns maxTurns messages zeroUsage
    (Except.ok out.1, out.2)

/-- The runtime wires the loop to a `TypedEventBus`: each emit runs the
bus delivery (which catches every handler failure) and yields unit. -/
def busEmitE (behav : Nat → List String → Except String Unit) (b : Bus)
    (event : String) : Except String Unit :=
  match busEmit behav b event "" with
  | Except.ok _ => Except.ok ()
  | Except.error e => Except.error e

/-! ## Plugin registry (`packages/core/src/plugin-registry.ts`,
and the multi-instance `loadAll` variant)

The registry is the JS `Map` from plugin name to plugin.  Dynamic
`import(packageName)` and contract validation are an oracle attached to
each configured package declaration. -/

/-- A plugin's contract data (`type` is `ptype`; `init`/`destroy`
behaviours are supplied separately to `initAll`/`destroyAll`). -/
structure Plugin where
  name : String
  version : String
  ptype : String
  dependencies : Option (List String) := none
  instanceId : Option String := none
deriving DecidableEq

/-- What `await import(packageName)` followed by `validatePlugin`
produced for one configured package. -/
inductive ImportOutcome where
  | failed (msg : String)
  | invalid
  | valid (basePlugin : Plugin)
deriving DecidableEq

/-- One configured package: its name, what importing it yields, and the
optional `instances` array of its configuration (each entry is the
descriptor's `instanceId` when it is a string, `none` for a descriptor
without one, which is skipped). -/
structure PackageDecl where
  packageName : String
  outcome : ImportOutcome
  instances : Option (List (Option String)) := none
deriving DecidableEq

/-- Embeds `createPluginInstance`: shallow clone with name `base#instanceId`. -/
def createPluginInstance (basePlugin : Plugin) (instanceId : String) : Plugin :=
  let newName := basePlugin.name ++ "#" ++ instanceId
  { basePlugin with name := newName, instanceId := some instanceId }

/-- The body of `loadAll` for one configured package. -/
def loadStep (reg : List (String × Plugin)) (d : PackageDecl) : List (String × Plugin) :=
  match d.outcome with
  | ImportOutcome.failed _ => reg
  | ImportOutcome.invalid => reg
  | ImportOutcome.valid basePlugin =>
    match d.instances with
    | some descriptors =>
      descriptors.foldl (fun r oid =>
        match oid with
        | some instanceId =>
          let plugin := createPluginInstance basePlugin instanceId
          mapSet r plugin.name plugin
        | none => r) reg
    | none => mapSet reg basePlugin.name basePlugin

/-- Embeds `PluginRegistry.loadAll` over the whole configuration. -/
def loadAll (decls : List PackageDecl) : List (String × Plugin) :=
  decls.foldl loadStep []

/-- All names the depth-first traversal can ever mark visited: every
registry key and every declared dependency name. -/
def sortUniverse (reg : List (String × Plugin)) : List String :=
  mapKeys reg ++ (reg.map (fun e => e.2.dependencies.getD [])).flatten

/-- Number of universe names not yet visited; the quantity that shrinks
whenever `visit` marks a new name. -/
def unvisitedCount (reg : List (String × Plugin)) (visited : List String) : Nat :=
  ((sortUniverse reg).filter (fun n => decide (n ∉ visited))).length

/-- The `for (const dep of plugin.dependencies ?? [])` loop (also used
for the seeding loop over the registry keys), threading the visited set
and the result list through successive calls of the given `visit`. -/
def visitDepsWith
    (visit1 : String → List String → List Plugin → Option (List String × List Plugin)) :
    List String → List String → List Plugin → Option (List String × List Plugin)
  | [], visited, result => some (visited, result)
  | n :: rest, visited, result =>
    match visit1 n visited result with
    | none => none
    | some (v, r) => visitDepsWith visit1 rest v r

/-- Embeds `topologicalSort`'s inner `visit`: mark, recurse into declared
dependencies, then push the plugin (post-order).  The fuel argument
makes the well-foundedness that the JS version gets from the
ever-growing `visited` set explicit; `sortFuel` below is proven
sufficient, so the `none` case never fires at the call site. -/
def visitFuel (reg : List (String × Plugin)) :
    Nat → String → List String → List Plugin → Option (List String × List Plugin)
  | 0, _, _, _ => none
  | fuel + 1, name, visited, result =>
    if name ∈ visited then some (visited, result)
    else
      match mapGet reg name with
      | none => some (name :: visited, result)
      | some plugin =>
        match visitDepsWith (visitFuel reg fuel)
            (plugin.dependencies.getD []) (name :: visited) result with
        | none => none
        | some (v, r) => some (v, r ++ [plugin])

/-- Fuel that is always enough: one more than the universe size. -/
def sortFuel (reg : List (String × Plugin)) : Nat :=
  (sortUniverse reg).length + 1

/-- Embeds `PluginRegistry.topologicalSort`. -/
def topologicalSort (reg : List (String × Plugin)) : List Plugin :=
  match visitDepsWith (visitFuel reg (sortFuel reg)) (mapKeys reg) [] [] with
  | some (_, result) => result
  | none => []

/-- The shared init/destroy iteration: call each plugin's lifecycle
behaviour in order; a throw is caught, logged and never stops the
iteration.  Returns the sequence of invoked plugin names and the logs. -/
def runLifecycle (behav : Plugin → Except String Unit) :
    List Plugin → List String × List String
  | [] => ([], [])
  | p :: rest =>
    let logHere : List String := match behav p with
      | Except.ok _ => []
      | Except.error msg => ["Failed lifecycle call for plugin " ++ p.name ++ ": " ++ msg]
    let out := runLifecycle behav rest
    (p.name :: out.1, logHere ++ out.2)

/-- Embeds `PluginRegistry.initAll`: dependency order. -/
def initAll (behav : Plugin → Except String Unit) (reg : List (String × Plugin)) :
    List String × List String :=
  runLifecycle behav (topologicalSort reg)

/-- Embeds `PluginRegistry.destroyAll`: the same order reversed. -/
def destroyAll (behav : Plugin → Except String Unit) (reg : List (String × Plugin)) :
    List String × List String :=
  runLifecycle behav (topologicalSort reg).reverse

/-- The declared dependency edge among registered names: `x` depends on
`y` (`y` must initialize first). -/
def depEdge (reg : List (String × Plugin)) (x y : String) : Prop :=
  match mapGet reg x with
  | some p => y ∈ p.dependencies.getD []
  | none => False

/-- The declared dependency graph has no (directed) cycle. -/
def Acyclic (reg : List (String × Plugin)) : Prop :=
  ∀ n, ¬ Relation.TransGen (depEdge reg) n n

/-- Input/output relation of one successful `visit` (or dependency-walk)
call: the visited set only grows, and the result list grows by exactly
the plugins of the newly visited registered names, each pushed once. -/
def VisitOut (reg : List (String × Plugin)) (vis : List String) (res : List Plugin)
    (v : List String) (r : List Plugin) : Prop :=
  vis ⊆ v ∧
  ∃ new, r = res ++ new ∧
    (∀ p ∈ new, mapGet reg p.name = some p ∧ p.name ∈ v ∧ p.name ∉ vis) ∧
    (new.map Plugin.name).Nodup ∧
    (∀ n ∈ v, n ∉ vis → ∀ p, mapGet reg n = some p → p ∈ new)

/-- Every visited name that is not grey (on the traversal stack) has its
plugin already pushed. -/
def BlackInv (reg : List (String × Plugin)) (vis : List String) (res : List Plugin)
    (stack : List String) : Prop :=
  ∀ n ∈ vis, n ∉ stack → ∀ p, mapGet reg n = some p → p ∈ res

/-- Every plugin in the result is preceded by the plugins of all of its
registered dependencies. -/
def ClosedRes (reg : List (String × Plugin)) (res : List Plugin) : Prop :=
  ∀ l1 p l2, res = l1 ++ p :: l2 →
    ∀ d ∈ p.dependencies.getD [], ∀ q, mapGet reg d = some q → q ∈ l1

/-! ## Concrete fixtures

Closed inputs used to evaluate the embedded operations on concrete
data: a tool whose execution throws, a model that always requests a
tool call, a model that always throws, plugin registries with and
without dependency cycles, duplicate-name plugin loads, and package
manager worlds. -/

/-- A handler behaviour that always succeeds. -/
def behav0 : Nat → List String → Except String Unit := fun _ _ => Except.ok ()

/-- A registered tool whose `execute` always throws `"bad"`. -/
def toolBoom : ToolRT :=
  { name := "boom", description := "d", parameters := "p",
    behav := fun _ _ => Except.error "bad" }

def tmapW : List (String × ToolRT) := buildToolMap [toolBoom]

def callUnknown : ToolCall := { id := "1", name := "nope", args := "{}" }

def callBoom : ToolCall := { id := "2", name := "boom", args := "{}" }

def ctxTool : ToolContext := { toolCallId := "1" }

def ctxA : AgentContext := { agentId := "a" }

/-- A tool call request the models below keep repeating. -/
def tcW : ToolCall := { id := "1", name := "t", args := "{}" }

/-- An assistant message carrying text alongside its tool call. -/
def respToolX : ChatResponse :=
  { message := { role := "assistant", content := "x", toolCalls := some [tcW] }
    usage := { promptTokens := 1, completionTokens := 2, totalTokens := 3 }
    finishReason := "tool_calls" }

/-- A model that always requests the same tool call. -/
def chatToolX : ChatRequest → Except String ChatResponse := fun _ => Except.ok respToolX

/-- A model whose every call rejects. -/
def chatFail : ChatRequest → Except String ChatResponse := fun _ => Except.error "boom"

def defn6 : AgentDefinition :=
  { id := "a", name := "a", systemPrompt := "s", model := "m", maxTurns := some 1 }

def defn10 : AgentDefinition :=
  { id := "a", name := "a", systemPrompt := "s", model := "m" }

/-- Plugin fixtures: `pb` depends on `pa`. -/
def pa : Plugin := { name := "a", version := "1", ptype := "custom" }

def pb : Plugin := { name := "b", version := "1", ptype := "custom", dependencies := some ["a"] }

def regW : List (String × Plugin) := [("a", pa), ("b", pb)]

/-- Plugin fixtures: a dependency cycle `a -> b -> a` plus a dependency
`c` that no registered plugin carries. -/
def pca : Plugin := { name := "a", version := "1", ptype := "custom", dependencies := some ["b"] }

def pcb : Plugin :=
  { name := "b", version := "1", ptype := "custom", dependencies := some ["a", "c"] }

def regCyc : List (String × Plugin) := [("a", pca), ("b", pcb)]

/-- Two distinct valid plugins carrying the same name, loaded from two
different configured packages. -/
def dup1 : Plugin := { name := "dup", version := "1", ptype := "custom" }

def dup2 : Plugin := { name := "dup", version := "2", ptype := "custom" }

def declsDup : List PackageDecl :=
  [{ packageName := "pkg1", outcome := ImportOutcome.valid dup1 },
   { packageName := "pkg2", outcome := ImportOutcome.valid dup2 }]

/-- Event-bus fixture: one named handler `0` registered for `"ev"`. -/
def bus1 : Bus := busOn emptyBus "ev" 0

/-- Package-manager world: everything resolves, the batched update
exits non-zero, the state file is missing (update due), writes work. -/
def worldU : PMWorld :=
  { resolves := fun _ => true, installExitCode := 0, updateExitCode := 1,
    stateExists := false, readState := Except.ok none, now := 500, writeFails := false }

def optsU : SyncOptions := { autoUpdate := some true, statePath := some "s" }

/-- Package-manager world with a fresh persisted timestamp. -/
def world9 : PMWorld :=
  { resolves := fun _ => true, installExitCode := 0, updateExitCode := 0,
    stateExists := true, readState := Except.ok (some 1000), now := 1500,
    writeFails := false }

def opts9 : SyncOptions :=
  { autoUpdate := some true, updateIntervalHours := some 1, statePath := some "s" }

/-! ## Proofs -/

theorem mapKeys_mapSet {α : Type} (m : List (String × α)) (k : String) (v : α) :
    (k ∈ mapKeys m → mapKeys (mapSet m k v) = mapKeys m) ∧
    (k ∉ mapKeys m → mapKeys (mapSet m k v) = mapKeys m ++ [k]) := by
  induction m with
  | nil => simp [mapKeys, mapSet]
  | cons e rest ih =>
    obtain ⟨k1, v1⟩ := e
    by_cases h : k1 = k
    · subst h
      simp [mapKeys, mapSet]
    · simp only [mapSet, if_neg h, mapKeys, List.map_cons, List.mem_cons]
      constructor
      · intro hmem
        rcases hmem with hk | hk
        · exact absurd hk.symm h
        · have := ih.1 hk
          simp [mapKeys] at this
          simp [this]
      · intro hmem
        push_neg at hmem
        have := ih.2 hmem.2
        simp [mapKeys] at this
        simp [this]

theorem mapKeys_mapSet_nodup {α : Type} (m : List (String × α)) (k : String) (v : α)
    (h : (mapKeys m).Nodup) : (mapKeys (mapSet m k v)).Nodup := by
  by_cases hk : k ∈ mapKeys m
  · rw [(mapKeys_mapSet m k v).1 hk]; exact h
  · rw [(mapKeys_mapSet m k v).2 hk]
    simp only [List.nodup_append, List.nodup_cons, List.nodup_nil]
    refine ⟨h, by simp, ?_⟩
    intro a ha hak
    simp only [List.mem_singleton] at hak
    subst hak
    exact hk ha

theorem mapGet_mapSet_self {α : Type} (m : List (String × α)) (k : String) (v : α) :
    mapGet (mapSet m k v) k = some v := by
  induction m with
  | nil => simp [mapSet, mapGet]
  | cons e rest ih =>
    obtain ⟨k1, v1⟩ := e
    by_cases h : k1 = k
    · subst h; simp [mapSet, mapGet]
    · simp [mapSet, mapGet, h, ih]

theorem mapGet_mem {α : Type} (m : List (String × α)) (k : String) (v : α)
    (h : mapGet m k = some v) : (k, v) ∈ m := by
  induction m with
  | nil => simp [mapGet] at h
  | cons e rest ih =>
    obtain ⟨k1, v1⟩ := e
    by_cases hk : k1 = k
    · subst hk
      simp [mapGet] at h
      simp [h]
    · simp [mapGet, hk] at h
      exact List.mem_cons_of_mem _ (ih h)

theorem mapGet_of_mem_nodup {α : Type} (m : List (String × α)) (k : String) (v : α)
    (hmem : (k, v) ∈ m) (hnd : (mapKeys m).Nodup) : mapGet m k = some v := by
  induction m with
  | nil => simp at hmem
  | cons e rest ih =>
    obtain ⟨k1, v1⟩ := e
    simp only [mapKeys, List.map_cons, List.nodup_cons] at hnd
    rcases List.mem_cons.mp hmem with he | he
    · obtain ⟨h1, h2⟩ := Prod.mk.injEq .. ▸ he
      subst h1; subst h2
      simp [mapGet]
    · have hne : k1 ≠ k := by
        intro h
        subst h
        exact hnd.1 (by simpa [mapKeys] using List.mem_map_of_mem (fun e => e.1) he)
      simp [mapGet, hne]
      exact ih he hnd.2

theorem mapGet_isSome_of_mem_keys {α : Type} (m : List (String × α)) (k : String)
    (h : k ∈ mapKeys m) : ∃ v, mapGet m k = some v := by
  induction m with
  | nil => simp [mapKeys] at h
  | cons e rest ih =>
    obtain ⟨k1, v1⟩ := e
    by_cases hk : k1 = k
    · subst hk; exact ⟨v1, by simp [mapGet]⟩
    · simp only [mapKeys, List.map_cons, List.mem_cons] at h
      rcases h with h | h
      · exact absurd h.symm hk
      · simpa [mapGet, hk] using ih h

theorem runHandlerSeq_fst (behav : Nat → List String → Except String Unit)
    (l : List Invocation) : (runHandlerSeq behav l).1 = l := by
  induction l with
  | nil => rfl
  | cons inv rest ih => simp [runHandlerSeq, ih]

theorem busEmit_trace (behav : Nat → List String → Except String Unit) (b : Bus)
    (event payload : String) :
    ∃ logs, busEmit behav b event payload =
      Except.ok
        ((((mapGet b.handlers event).getD []).map (fun h => Invocation.mk h [payload])
          ++ b.wildcardHandlers.map (fun h => Invocation.mk h [event, payload])), logs) := by
  refine ⟨(runHandlerSeq behav
      (((mapGet b.handlers event).getD []).map (fun h => Invocation.mk h [payload]))).2
    ++ (runHandlerSeq behav
      (b.wildcardHandlers.map (fun h => Invocation.mk h [event, payload]))).2, ?_⟩
  simp only [busEmit]
  rw [runHandlerSeq_fst, runHandlerSeq_fst]

theorem busOff_handlers (b : Bus) (event : String) (h : Nat) :
    (mapGet (busOff b event h).handlers event).getD [] =
      setDel ((mapGet b.handlers event).getD []) h := by
  unfold busOff
  cases hm : mapGet b.handlers event with
  | none => simp [hm, setDel]
  | some l => simp [hm, mapGet_mapSet_self]

theorem executeTool_ok (tmap : List (String × ToolRT)) (toolCall : ToolCall)
    (context : ToolContext) : ∃ r, executeTool tmap toolCall context = Except.ok r := by
  rcases h : mapGet tmap toolCall.name with _ | tool
  · exact ⟨{ success := false, output := "Unknown tool: " ++ toolCall.name },
      by simp [executeTool, h]⟩
  · rcases hb : tool.behav toolCall.args context with msg | r
    · exact ⟨{ success := false, output := "Tool error: " ++ msg },
        by simp [executeTool, h, hb]⟩
    · exact ⟨r, by simp [executeTool, h, hb]⟩

theorem busEmitE_ok (behav : Nat → List String → Except String Unit) (b : Bus)
    (event : String) : busEmitE behav b event = Except.ok () := rfl

theorem sumUsage_nil (u : TokenUsage) : sumUsage u [] = u := rfl

theorem sumUsage_cons (u : TokenUsage) (r : ChatResponse) (rs : List ChatResponse) :
    sumUsage u (r :: rs) = sumUsage (addUsage u r.usage) rs := rfl

theorem runToolCalls_ok (emitE : String → Except String Unit)
    (Hemit : ∀ e, emitE e = Except.ok ())
    (tmap : List (String × ToolRT)) (context : AgentContext) :
    ∀ toolCalls messages, ∃ extra,
      runToolCalls emitE tmap context toolCalls messages = Except.ok (messages ++ extra) ∧
      ∀ m ∈ extra, m.role = "tool" := by
  intro toolCalls
  induction toolCalls with
  | nil =>
    intro messages
    exact ⟨[], by simp [runToolCalls], by simp⟩
  | cons tc rest ih =>
    intro messages
    obtain ⟨r, hr⟩ := executeTool_ok tmap tc
      { toolCallId := tc.id, agentId := some context.agentId, channelId := context.channelId }
    obtain ⟨extra, hrec, hroles⟩ := ih
      (messages ++ [{ role := "tool", content := r.output, toolCallId := some tc.id }])
    refine ⟨{ role := "tool", content := r.output, toolCallId := some tc.id } :: extra, ?_, ?_⟩
    · simp only [runToolCalls, Hemit, hr, hrec]
      simp
    · intro m hm
      rcases List.mem_cons.mp hm with h | h
      · subst h; rfl
      · exact hroles m h

theorem loopGo_calls_le (chat : ChatRequest → Except String ChatResponse)
    (emitE : String → Except String Unit) (tmap : List (String × ToolRT))
    (context : AgentContext) (defn : AgentDefinition)
    (toolDefs : List ToolDefinition) (maxTurns : Nat) :
    ∀ remaining messages totalUsage,
      (loopGo chat emitE tmap context defn toolDefs maxTurns
        remaining messages totalUsage).2.1 ≤ remaining := by
  intro remaining
  induction remaining with
  | zero => intro messages totalUsage; simp [loopGo]
  | succ rem ih =>
    intro messages totalUsage
    simp only [loopGo]
    split
    · simp
    next response hc =>
      split
      · simp
      next u he =>
        split
        · split <;> simp
        next hf =>
          split
          · simp
          next messages2 ht =>
            have h2 := ih messages2 (addUsage totalUsage response.usage)
            simpa using Nat.succ_le_succ h2

theorem loopGo_inv (chat : ChatRequest → Except String ChatResponse)
    (emitE : String → Except String Unit) (tmap : List (String × ToolRT))
    (context : AgentContext) (defn : AgentDefinition)
    (toolDefs : List ToolDefinition) (maxTurns : Nat)
    (Hemit : ∀ e, emitE e = Except.ok ()) :
    ∀ remaining messages totalUsage r n tr,
      loopGo chat emitE tmap context defn toolDefs maxTurns
        remaining messages totalUsage = (r, n, tr) →
      r.metadata.usage = sumUsage totalUsage tr ∧
      (r.metadata.error = none → n = tr.length) ∧
      (∀ msg, r.metadata.error = some msg →
        r.output = "" ∧ n = tr.length + 1 ∧
        ∃ hist, chat { model := defn.model, messages := hist, tools := if toolDefs.length > 0 then some toolDefs else none } = Except.error msg) := by
  intro remaining
  induction remaining with
  | zero =>
    intro messages totalUsage r n tr h
    simp only [loopGo, Hemit] at h
    injection h with hr h2
    injection h2 with hn htr
    subst hr
    subst hn
    subst htr
    refine ⟨rfl, fun _ => rfl, ?_⟩
    intro msg hmsg
    simp at hmsg
  | succ rem ih =>
    intro messages totalUsage r n tr h
    simp only [loopGo] at h
    rcases hc : chat { model := defn.model, messages := messages, tools := if toolDefs.length > 0 then some toolDefs else none } with e | response
    all_goals simp only [hc, Hemit] at h
    · injection h with hr h2
      injection h2 with hn htr
      subst hr
      subst hn
      subst htr
      refine ⟨rfl, ?_, ?_⟩
      · intro hnone
        simp [errResult] at hnone
      · intro msg hmsg
        simp only [errResult] at hmsg
        injection hmsg with hme
        subst hme
        exact ⟨rfl, rfl, ⟨messages, hc⟩⟩
    · by_cases hf : response.finishReason ≠ "tool_calls"
      · rw [if_pos hf] at h
        injection h with hr h2
        injection h2 with hn htr
        subst hr
        subst hn
        subst htr
        refine ⟨by simp [sumUsage_cons, sumUsage_nil], fun _ => rfl, ?_⟩
        intro msg hmsg
        simp at hmsg
      · rw [if_neg hf] at h
        obtain ⟨extra, hrt, _⟩ := runToolCalls_ok emitE Hemit tmap context
          (response.message.toolCalls.getD []) (messages ++ [response.message])
        rw [hrt] at h
        simp only [List.append_assoc, List.singleton_append] at h
        rcases hLG : loopGo chat emitE tmap context defn toolDefs maxTurns rem
          (messages ++ response.message :: extra) (addUsage totalUsage response.usage)
          with ⟨r1, nt1⟩
        obtain ⟨n1, tr1⟩ := nt1
        rw [hLG] at h
        simp only [] at h
        injection h with hr h2
        injection h2 with hn htr
        subst hr
        subst hn
        subst htr
        obtain ⟨h1, h2, h3⟩ := ih (messages ++ response.message :: extra)
          (addUsage totalUsage response.usage) r1 n1 tr1 hLG
        refine ⟨by rw [sumUsage_cons]; exact h1, ?_, ?_⟩
        · intro hnone
          have hcount := h2 hnone
          simp only [List.length_cons]
          omega
        · intro msg hmsg
          obtain ⟨ho, hcnt, hist⟩ := h3 msg hmsg
          refine ⟨ho, ?_, hist⟩
          simp only [List.length_cons]
          omega

theorem loopGo_always_toolcalls (chat : ChatRequest → Except String ChatResponse)
    (emitE : String → Except String Unit) (tmap : List (String × ToolRT))
    (context : AgentContext) (defn : AgentDefinition)
    (toolDefs : List ToolDefinition) (maxTurns : Nat)
    (Hemit : ∀ e, emitE e = Except.ok ())
    (Hchat : ∀ req, ∃ resp, chat req = Except.ok resp ∧ resp.finishReason = "tool_calls") :
    ∀ remaining messages totalUsage r n tr,
      loopGo chat emitE tmap context defn toolDefs maxTurns
        remaining messages totalUsage = (r, n, tr) →
      n = remaining ∧ tr.length = remaining ∧
      r.metadata = { usage := sumUsage totalUsage tr, turns := some maxTurns,
                     maxTurnsReached := true, error := none } := by
  intro remaining
  induction remaining with
  | zero =>
    intro messages totalUsage r n tr h
    simp only [loopGo, Hemit] at h
    injection h with hr h2
    injection h2 with hn htr
    subst hr
    subst hn
    subst htr
    exact ⟨rfl, rfl, rfl⟩
  | succ rem ih =>
    intro messages totalUsage r n tr h
    simp only [loopGo] at h
    obtain ⟨response, hc, hf⟩ := Hchat { model := defn.model, messages := messages, tools := if toolDefs.length > 0 then some toolDefs else none }
    simp only [hc, Hemit] at h
    rw [if_neg (by simp [hf])] at h
    obtain ⟨extra, hrt, _⟩ := runToolCalls_ok emitE Hemit tmap context
      (response.message.toolCalls.getD []) (messages ++ [response.message])
    rw [hrt] at h
    simp only [List.append_assoc, List.singleton_append] at h
    injection h with hr h2
    injection h2 with hn htr
    subst hr
    subst hn
    subst htr
    obtain ⟨h1, h2, h3⟩ := ih (messages ++ response.message :: extra)
      (addUsage totalUsage response.usage) _ _ _ rfl
    refine ⟨by rw [h1], by simp [h2], ?_⟩
    rw [sumUsage_cons]
    exact h3

theorem lastAssistantContent_append_tools (messages extra : List ChatMessage)
    (hextra : ∀ m ∈ extra, m.role = "tool") :
    lastAssistantContent (messages ++ extra) = lastAssistantContent messages := by
  unfold lastAssistantContent
  rw [List.reverse_append, List.find?_append]
  have hnone : extra.reverse.find? (fun m => m.role == "assistant") = none := by
    rw [List.find?_eq_none]
    intro m hm
    have := hextra m (List.mem_reverse.mp hm)
    simp [this]
  simp [hnone]

theorem lastAssistantContent_snoc_assistant (messages : List ChatMessage)
    (m : ChatMessage) (hrole : m.role = "assistant") :
    lastAssistantContent (messages ++ [m]) = m.content := by
  unfold lastAssistantContent
  rw [List.reverse_append]
  simp [hrole]

theorem visitOut_refl (reg : List (String × Plugin)) (vis : List String) (res : List Plugin) :
    VisitOut reg vis res vis res := by
  refine ⟨List.Subset.refl _, [], by simp, by simp, by simp, ?_⟩
  intro n hn hnn
  exact absurd hn hnn

theorem visitOut_trans (reg : List (String × Plugin))
    {vis res v1 r1 v r} (h1 : VisitOut reg vis res v1 r1) (h2 : VisitOut reg v1 r1 v r) :
    VisitOut reg vis res v r := by
  obtain ⟨hsub1, new1, he1, hprops1, hnd1, hcomp1⟩ := h1
  obtain ⟨hsub2, new2, he2, hprops2, hnd2, hcomp2⟩ := h2
  refine ⟨hsub1.trans hsub2, new1 ++ new2, by rw [he2, he1, List.append_assoc], ?_, ?_, ?_⟩
  · intro p hp
    rcases List.mem_append.mp hp with h | h
    · obtain ⟨hg, hv, hnv⟩ := hprops1 p h
      exact ⟨hg, hsub2 hv, hnv⟩
    · obtain ⟨hg, hv, hnv⟩ := hprops2 p h
      exact ⟨hg, hv, fun hmem => hnv (hsub1 hmem)⟩
  · rw [List.map_append]
    rw [List.nodup_append]
    refine ⟨hnd1, hnd2, ?_⟩
    intro a ha1 ha2
    obtain ⟨p1, hp1, hpa1⟩ := List.mem_map.mp ha1
    obtain ⟨p2, hp2, hpa2⟩ := List.mem_map.mp ha2
    obtain ⟨_, hv1, _⟩ := hprops1 p1 hp1
    obtain ⟨_, _, hnv2⟩ := hprops2 p2 hp2
    exact hnv2 (by rw [hpa2, ← hpa1]; exact hv1)
  · intro n hn hnv p hp
    by_cases hv1 : n ∈ v1
    · exact List.mem_append_left _ (hcomp1 n hv1 hnv p hp)
    · exact List.mem_append_right _ (hcomp2 n hn hv1 p hp)

theorem visitDepsWith_out (reg : List (String × Plugin))
    (visit1 : String → List String → List Plugin → Option (List String × List Plugin))
    (H : ∀ name vis res v r, visit1 name vis res = some (v, r) →
      VisitOut reg vis res v r ∧ name ∈ v) :
    ∀ names vis res v r, visitDepsWith visit1 names vis res = some (v, r) →
      VisitOut reg vis res v r ∧ ∀ n ∈ names, n ∈ v := by
  intro names
  induction names with
  | nil =>
    intro vis res v r h
    simp only [visitDepsWith] at h
    injection h with h1
    injection h1 with hv hr
    subst hv
    subst hr
    exact ⟨visitOut_refl reg _ _, by simp⟩
  | cons n rest ih =>
    intro vis res v r h
    simp only [visitDepsWith] at h
    rcases hv : visit1 n vis res with _ | out1
    · rw [hv] at h; exact absurd h (by simp)
    · obtain ⟨v1, r1⟩ := out1
      rw [hv] at h
      simp only [] at h
      obtain ⟨out1p, hn1⟩ := H n vis res v1 r1 hv
      obtain ⟨outp, hrest⟩ := ih v1 r1 v r h
      refine ⟨visitOut_trans reg out1p outp, ?_⟩
      intro m hm
      rcases List.mem_cons.mp hm with h1 | h1
      · subst h1; exact outp.1 hn1
      · exact hrest m h1

theorem dep_mem_sortUniverse (reg : List (String × Plugin)) {k : String} {p : Plugin}
    {d : String} (hmem : (k, p) ∈ reg) (hd : d ∈ p.dependencies.getD []) :
    d ∈ sortUniverse reg := by
  unfold sortUniverse
  apply List.mem_append_right
  rw [List.mem_flatten]
  exact ⟨p.dependencies.getD [], List.mem_map_of_mem (fun e => e.2.dependencies.getD []) hmem, hd⟩

theorem visitFuel_out (reg : List (String × Plugin))
    (Hk : ∀ e ∈ reg, (e.2).name = e.1) :
    ∀ fuel name vis res v r, visitFuel reg fuel name vis res = some (v, r) →
      VisitOut reg vis res v r ∧ name ∈ v := by
  intro fuel
  induction fuel with
  | zero =>
    intro name vis res v r h
    exact absurd h (by simp [visitFuel])
  | succ fuel ih =>
    intro name vis res v r h
    simp only [visitFuel] at h
    by_cases hmem : name ∈ vis
    · rw [if_pos hmem] at h
      injection h with h1
      injection h1 with hv hr
      subst hv
      subst hr
      exact ⟨visitOut_refl reg _ _, hmem⟩
    · rw [if_neg hmem] at h
      split at h
      next hm =>
        injection h with h1
        injection h1 with hv hr
        subst hv
        subst hr
        refine ⟨⟨List.subset_cons_self _ _, [], by simp, by simp, by simp, ?_⟩,
          List.mem_cons_self _ _⟩
        intro n hn hnv p hp
        rcases List.mem_cons.mp hn with h1 | h1
        · subst h1; rw [hm] at hp; exact absurd hp (by simp)
        · exact absurd h1 hnv
      next plugin hm =>
        split at h
        · exact absurd h (by simp)
        next v1 r1 hd =>
          injection h with h1
          injection h1 with hv hr
          subst hv
          subst hr
          obtain ⟨outd, hdeps⟩ := visitDepsWith_out reg (visitFuel reg fuel)
            (fun nm vs rs vv rr hh => ih nm vs rs vv rr hh) _ _ _ _ _ hd
          have hname : plugin.name = name := Hk (name, plugin) (mapGet_mem reg name plugin hm)
          have hnv1 : name ∈ v1 := outd.1 (List.mem_cons_self _ _)
          obtain ⟨hsubd, newd, hed, hpropsd, hndd, hcompd⟩ := outd
          refine ⟨⟨(List.subset_cons_self _ _).trans hsubd, newd ++ [plugin],
            by rw [hed, List.append_assoc], ?_, ?_, ?_⟩, hnv1⟩
          · intro p hp
            rcases List.mem_append.mp hp with h1 | h1
            · obtain ⟨hg, hvv, hnvv⟩ := hpropsd p h1
              exact ⟨hg, hvv, fun hc => hnvv (List.mem_cons_of_mem _ hc)⟩
            · rw [List.mem_singleton] at h1
              subst h1
              rw [hname]
              exact ⟨hm, hnv1, hmem⟩
          · rw [List.map_append, List.nodup_append]
            refine ⟨hndd, by simp, ?_⟩
            intro a ha1 ha2
            simp only [List.map_cons, List.map_nil, List.mem_singleton] at ha2
            obtain ⟨p1, hp1, hpa1⟩ := List.mem_map.mp ha1
            obtain ⟨_, _, hnvv⟩ := hpropsd p1 hp1
            rw [ha2, hname] at hpa1
            exact hnvv (by rw [hpa1]; exact List.mem_cons_self _ _)
          · intro n hn hnv p hp
            by_cases he : n = name
            · subst he
              rw [hm] at hp
              injection hp with hp1
              subst hp1
              exact List.mem_append_right _ (List.mem_singleton.mpr rfl)
            · have hnc : n ∉ name :: vis := by
                intro hc
                rcases List.mem_cons.mp hc with h1 | h1
                · exact he h1
                · exact hnv h1
              exact List.mem_append_left _ (hcompd n hn hnc p hp)

theorem unvisitedCount_le (reg : List (String × Plugin)) {vis vis' : List String}
    (h : vis ⊆ vis') : unvisitedCount reg vis' ≤ unvisitedCount reg vis := by
  unfold unvisitedCount
  rw [← List.countP_eq_length_filter, ← List.countP_eq_length_filter]
  apply List.countP_mono_left
  intro a _ ha
  rw [decide_eq_true_eq] at ha
  rw [decide_eq_true_eq]
  intro hmem
  exact ha (h hmem)

theorem filter_cons_lt (vis : List String) (name : String) (hnv : name ∉ vis) :
    ∀ l : List String, name ∈ l →
      (l.filter (fun n => decide (n ∉ name :: vis))).length <
        (l.filter (fun n => decide (n ∉ vis))).length := by
  intro l
  induction l with
  | nil => intro h; simp at h
  | cons a t ih =>
    intro hU
    have hmono : (t.filter (fun n => decide (n ∉ name :: vis))).length ≤
        (t.filter (fun n => decide (n ∉ vis))).length := by
      rw [← List.countP_eq_length_filter, ← List.countP_eq_length_filter]
      apply List.countP_mono_left
      intro x _ hx
      rw [decide_eq_true_eq] at hx
      rw [decide_eq_true_eq]
      intro hmem
      exact hx (List.mem_cons_of_mem _ hmem)
    by_cases ha : a = name
    · subst ha
      simp only [List.filter_cons]
      rw [if_neg (by simp), if_pos (by simpa using hnv)]
      simp only [List.length_cons]
      omega
    · have hnt : name ∈ t := by
        rcases List.mem_cons.mp hU with h | h
        · exact absurd h.symm ha
        · exact h
      have hlt := ih hnt
      simp only [List.filter_cons]
      by_cases hmem : a ∈ vis
      · rw [if_neg (by simp [hmem]), if_neg (by simp [hmem])]
        exact hlt
      · rw [if_pos, if_pos]
        · simpa using hlt
        · simpa using hmem
        · simp only [decide_eq_true_eq, List.mem_cons]
          push_neg
          exact ⟨ha, hmem⟩
  
theorem unvisitedCount_cons_lt (reg : List (String × Plugin)) {name : String}
    {vis : List String} (hU : name ∈ sortUniverse reg) (hnv : name ∉ vis) :
    unvisitedCount reg (name :: vis) < unvisitedCount reg vis :=
  filter_cons_lt vis name hnv (sortUniverse reg) hU

theorem visitDepsWith_some (reg : List (String × Plugin)) (F : Nat)
    (visit1 : String → List String → List Plugin → Option (List String × List Plugin))
    (Hsome : ∀ name vis res, name ∈ sortUniverse reg → unvisitedCount reg vis < F →
      ∃ out, visit1 name vis res = some out)
    (Hsub : ∀ name vis res v r, visit1 name vis res = some (v, r) → vis ⊆ v) :
    ∀ names vis res, (∀ n ∈ names, n ∈ sortUniverse reg) → unvisitedCount reg vis < F →
      ∃ v r, visitDepsWith visit1 names vis res = some (v, r) ∧ vis ⊆ v := by
  intro names
  induction names with
  | nil =>
    intro vis res _ _
    exact ⟨vis, res, by simp [visitDepsWith], List.Subset.refl _⟩
  | cons n rest ih =>
    intro vis res hU hcnt
    obtain ⟨out1, hout1⟩ := Hsome n vis res (hU n (List.mem_cons_self _ _)) hcnt
    obtain ⟨v1, r1⟩ := out1
    have hsub1 : vis ⊆ v1 := Hsub n vis res v1 r1 hout1
    have hcnt1 : unvisitedCount reg v1 < F :=
      lt_of_le_of_lt (unvisitedCount_le reg hsub1) hcnt
    obtain ⟨v, r, hrest, hsub⟩ := ih v1 r1
      (fun m hm => hU m (List.mem_cons_of_mem _ hm)) hcnt1
    refine ⟨v, r, ?_, hsub1.trans hsub⟩
    simp only [visitDepsWith, hout1]
    exact hrest

theorem visitFuel_some (reg : List (String × Plugin))
    (Hk : ∀ e ∈ reg, (e.2).name = e.1) :
    ∀ fuel name vis res, name ∈ sortUniverse reg → unvisitedCount reg vis < fuel →
      ∃ out, visitFuel reg fuel name vis res = some out := by
  intro fuel
  induction fuel with
  | zero =>
    intro name vis res _ hcnt
    exact absurd hcnt (by omega)
  | succ fuel ih =>
    intro name vis res hU hcnt
    by_cases hmem : name ∈ vis
    · exact ⟨(vis, res), by simp [visitFuel, hmem]⟩
    · rcases hm : mapGet reg name with _ | plugin
      · exact ⟨(name :: vis, res), by simp [visitFuel, hmem, hm]⟩
      · have hcnt1 : unvisitedCount reg (name :: vis) < fuel := by
          have := unvisitedCount_cons_lt reg hU hmem
          omega
        have hdepU : ∀ d ∈ plugin.dependencies.getD [], d ∈ sortUniverse reg :=
          fun d hd => dep_mem_sortUniverse reg (mapGet_mem reg name plugin hm) hd
        obtain ⟨v1, r1, hd, _⟩ := visitDepsWith_some reg fuel (visitFuel reg fuel)
          (fun nm vs rs hu hc => ih nm vs rs hu hc)
          (fun nm vs rs vv rr hh => (visitFuel_out reg Hk fuel nm vs rs vv rr hh).1.1)
          (plugin.dependencies.getD []) (name :: vis) res hdepU hcnt1
        exact ⟨(v1, r1 ++ [plugin]), by simp [visitFuel, hmem, hm, hd]⟩

theorem topologicalSort_eq (reg : List (String × Plugin))
    (Hk : ∀ e ∈ reg, (e.2).name = e.1) :
    ∃ v r, visitDepsWith (visitFuel reg (sortFuel reg)) (mapKeys reg) [] [] = some (v, r) ∧
      topologicalSort reg = r ∧ VisitOut reg [] [] v r ∧ ∀ n ∈ mapKeys reg, n ∈ v := by
  have hcnt : unvisitedCount reg [] < sortFuel reg := by
    unfold unvisitedCount sortFuel
    have : ((sortUniverse reg).filter (fun n => decide (n ∉ ([] : List String)))).length ≤
        (sortUniverse reg).length := List.length_filter_le _ _
    omega
  obtain ⟨v, r, hsome, _⟩ := visitDepsWith_some reg (sortFuel reg)
    (visitFuel reg (sortFuel reg))
    (fun nm vs rs hu hc => visitFuel_some reg Hk (sortFuel reg) nm vs rs hu hc)
    (fun nm vs rs vv rr hh => (visitFuel_out reg Hk (sortFuel reg) nm vs rs vv rr hh).1.1)
    (mapKeys reg) [] []
    (fun n hn => List.mem_append_left _ hn) hcnt
  obtain ⟨outp, hseeds⟩ := visitDepsWith_out reg (visitFuel reg (sortFuel reg))
    (fun nm vs rs vv rr hh => visitFuel_out reg Hk (sortFuel reg) nm vs rs vv rr hh)
    (mapKeys reg) [] [] v r hsome
  exact ⟨v, r, hsome, by simp [topologicalSort, hsome], outp, hseeds⟩

theorem topologicalSort_perm (reg : List (String × Plugin))
    (Hk : ∀ e ∈ reg, (e.2).name = e.1) (Hnd : (mapKeys reg).Nodup) :
    (topologicalSort reg).Perm (reg.map (fun e => e.2)) := by
  obtain ⟨v, r, hsome, heq, outp, hseeds⟩ := topologicalSort_eq reg Hk
  rw [heq]
  obtain ⟨_, new, hre, hprops, hndnames, hcomp⟩ := outp
  rw [List.nil_append] at hre
  subst hre
  have hfwd : ∀ p ∈ r, p ∈ reg.map (fun e => e.2) := by
    intro p hp
    obtain ⟨hg, _, _⟩ := hprops p hp
    exact List.mem_map.mpr ⟨(p.name, p), mapGet_mem reg p.name p hg, rfl⟩
  have hbwd : ∀ p ∈ reg.map (fun e => e.2), p ∈ r := by
    intro p hp
    obtain ⟨e, he, hep⟩ := List.mem_map.mp hp
    have hkey : e.1 ∈ mapKeys reg := List.mem_map_of_mem (fun x => x.1) he
    have hget : mapGet reg e.1 = some p := by
      have : (e.1, p) ∈ reg := by
        rw [← hep]
        exact he
      exact mapGet_of_mem_nodup reg e.1 p this Hnd
    exact hcomp e.1 (hseeds e.1 hkey) (by simp) p hget
  have hnd1 : r.Nodup := hndnames.of_map Plugin.name
  have hnd2 : (reg.map (fun e => e.2)).Nodup := by
    have hmm : (reg.map (fun e => e.2)).map Plugin.name = mapKeys reg := by
      rw [List.map_map]
      exact List.map_congr_left (fun e he => Hk e he)
    have : ((reg.map (fun e => e.2)).map Plugin.name).Nodup := by rw [hmm]; exact Hnd
    exact this.of_map Plugin.name
  exact (List.perm_ext_iff_of_nodup hnd1 hnd2).mpr
    (fun p => ⟨fun hp => hfwd p hp, fun hp => hbwd p hp⟩)

theorem depEdge_intro (reg : List (String × Plugin)) {x y : String} {p : Plugin}
    (hm : mapGet reg x = some p) (hy : y ∈ p.dependencies.getD []) : depEdge reg x y := by
  simp only [depEdge, hm]
  exact hy

theorem chain_transGen (reg : List (String × Plugin)) :
    ∀ stack name, List.Chain' (fun a b => depEdge reg b a) (name :: stack) →
      ∀ d ∈ stack, Relation.TransGen (depEdge reg) d name := by
  intro stack
  induction stack with
  | nil => intro name _ d hd; simp at hd
  | cons s rest ih =>
    intro name hchain d hd
    rw [List.chain'_cons] at hchain
    obtain ⟨hedge, hrest⟩ := hchain
    rcases List.mem_cons.mp hd with h | h
    · subst h
      exact Relation.TransGen.single hedge
    · exact (ih s hrest d h).trans (Relation.TransGen.single hedge)

theorem closedRes_nil (reg : List (String × Plugin)) : ClosedRes reg [] := by
  intro l1 p l2 heq
  exact absurd heq.symm (by simp)

theorem closed_push (reg : List (String × Plugin)) {res : List Plugin} {plugin : Plugin}
    (hc : ClosedRes reg res)
    (hdeps : ∀ d ∈ plugin.dependencies.getD [], ∀ q, mapGet reg d = some q → q ∈ res) :
    ClosedRes reg (res ++ [plugin]) := by
  intro l1 p l2 heq d hd q hq
  cases l2 using List.reverseRecOn with
  | nil =>
    obtain ⟨h1, h2⟩ := List.append_inj' heq (by simp)
    have hp : plugin = p := by simpa using h2
    subst h1
    exact hdeps d (by rw [hp]; exact hd) q hq
  | append_singleton l2h last =>
    have heq2 : res ++ [plugin] = (l1 ++ p :: l2h) ++ [last] := by
      rw [heq]
      simp
    obtain ⟨h1, _⟩ := List.append_inj' heq2 (by simp)
    exact hc l1 p l2h h1 d hd q hq

theorem visitDepsWith_black (reg : List (String × Plugin))
    (visit1 : String → List String → List Plugin → Option (List String × List Plugin))
    (Hb : ∀ name vis res v r stack, visit1 name vis res = some (v, r) →
      stack ⊆ vis → List.Chain' (fun a b => depEdge reg b a) (name :: stack) →
      BlackInv reg vis res stack → ClosedRes reg res →
      BlackInv reg v r stack ∧ ClosedRes reg r)
    (Hsub : ∀ name vis res v r, visit1 name vis res = some (v, r) → vis ⊆ v) :
    ∀ names vis res v r stack, visitDepsWith visit1 names vis res = some (v, r) →
      stack ⊆ vis →
      (∀ n ∈ names, List.Chain' (fun a b => depEdge reg b a) (n :: stack)) →
      BlackInv reg vis res stack → ClosedRes reg res →
      BlackInv reg v r stack ∧ ClosedRes reg r := by
  intro names
  induction names with
  | nil =>
    intro vis res v r stack h hst _ hb hc
    simp only [visitDepsWith] at h
    injection h with h1
    injection h1 with hv hr
    subst hv
    subst hr
    exact ⟨hb, hc⟩
  | cons n rest ih =>
    intro vis res v r stack h hst hchains hb hc
    simp only [visitDepsWith] at h
    rcases hv1 : visit1 n vis res with _ | out1
    · rw [hv1] at h; exact absurd h (by simp)
    · obtain ⟨v1, r1⟩ := out1
      rw [hv1] at h
      simp only [] at h
      obtain ⟨hb1, hc1⟩ := Hb n vis res v1 r1 stack hv1 hst
        (hchains n (List.mem_cons_self _ _)) hb hc
      exact ih v1 r1 v r stack h (hst.trans (Hsub n vis res v1 r1 hv1))
        (fun m hm => hchains m (List.mem_cons_of_mem _ hm)) hb1 hc1

theorem visitFuel_black (reg : List (String × Plugin))
    (Hk : ∀ e ∈ reg, (e.2).name = e.1) (Hacyc : Acyclic reg) :
    ∀ fuel name vis res v r stack, visitFuel reg fuel name vis res = some (v, r) →
      stack ⊆ vis → List.Chain' (fun a b => depEdge reg b a) (name :: stack) →
      BlackInv reg vis res stack → ClosedRes reg res →
      BlackInv reg v r stack ∧ ClosedRes reg r := by
  intro fuel
  induction fuel with
  | zero =>
    intro name vis res v r stack h
    exact absurd h (by simp [visitFuel])
  | succ fuel ih =>
    intro name vis res v r stack h hst hchain hb hc
    simp only [visitFuel] at h
    by_cases hmem : name ∈ vis
    · rw [if_pos hmem] at h
      injection h with h1
      injection h1 with hv hr
      subst hv
      subst hr
      exact ⟨hb, hc⟩
    · rw [if_neg hmem] at h
      split at h
      next hm =>
        injection h with h1
        injection h1 with hv hr
        subst hv
        subst hr
        refine ⟨?_, hc⟩
        intro n hn hns p hp
        rcases List.mem_cons.mp hn with h1 | h1
        · subst h1; rw [hm] at hp; exact absurd hp (by simp)
        · exact hb n h1 hns p hp
      next plugin hm =>
        split at h
        · exact absurd h (by simp)
        next v1 r1 hd =>
          injection h with h1
          injection h1 with hv hr
          subst hv
          subst hr
          have hname : plugin.name = name := Hk (name, plugin) (mapGet_mem reg name plugin hm)
          have hst1 : name :: stack ⊆ name :: vis := by
            intro x hx
            rcases List.mem_cons.mp hx with h1 | h1
            · subst h1; exact List.mem_cons_self _ _
            · exact List.mem_cons_of_mem _ (hst h1)
          have hchains1 : ∀ d ∈ plugin.dependencies.getD [],
              List.Chain' (fun a b => depEdge reg b a) (d :: name :: stack) := by
            intro d hdep
            rw [List.chain'_cons]
            exact ⟨depEdge_intro reg hm hdep, hchain⟩
          have hb1 : BlackInv reg (name :: vis) res (name :: stack) := by
            intro n hn hns p hp
            rcases List.mem_cons.mp hn with h1 | h1
            · exact absurd (h1 ▸ List.mem_cons_self name stack) hns
            · exact hb n h1 (fun hcs => hns (List.mem_cons_of_mem _ hcs)) p hp
          obtain ⟨hbd, hcd⟩ := visitDepsWith_black reg (visitFuel reg fuel)
            (fun nm vs rs vv rr st hh h1 h2 h3 h4 => ih nm vs rs vv rr st hh h1 h2 h3 h4)
            (fun nm vs rs vv rr hh => (visitFuel_out reg Hk fuel nm vs rs vv rr hh).1.1)
            (plugin.dependencies.getD []) (name :: vis) res v1 r1 (name :: stack)
            hd hst1 hchains1 hb1 hc
          obtain ⟨outd, hdeps1⟩ := visitDepsWith_out reg (visitFuel reg fuel)
            (fun nm vs rs vv rr hh => visitFuel_out reg Hk fuel nm vs rs vv rr hh)
            (plugin.dependencies.getD []) (name :: vis) res v1 r1 hd
          have hdeps_push : ∀ d ∈ plugin.dependencies.getD [],
              ∀ q, mapGet reg d = some q → q ∈ r1 := by
            intro d hdep q hq
            have hdv : d ∈ v1 := hdeps1 d hdep
            have hdns : d ∉ name :: stack := by
              intro hdc
              rcases List.mem_cons.mp hdc with h1 | h1
              · subst h1
                exact Hacyc d (Relation.TransGen.single (depEdge_intro reg hm hdep))
              · exact Hacyc name
                  ((Relation.TransGen.single (depEdge_intro reg hm hdep)).trans
                    (chain_transGen reg stack name hchain d h1))
            exact hbd d hdv hdns q hq
          refine ⟨?_, closed_push reg hcd hdeps_push⟩
          intro n hn hns p hp
          by_cases he : n = name
          · subst he
            rw [hm] at hp
            injection hp with hp1
            subst hp1
            exact List.mem_append_right _ (List.mem_singleton.mpr rfl)
          · have hns1 : n ∉ name :: stack := by
              intro hcn
              rcases List.mem_cons.mp hcn with h1 | h1
              · exact he h1
              · exact hns h1
            exact List.mem_append_left _ (hbd n hn hns1 p hp)

theorem topologicalSort_closed (reg : List (String × Plugin))
    (Hk : ∀ e ∈ reg, (e.2).name = e.1) (Hacyc : Acyclic reg) :
    ClosedRes reg (topologicalSort reg) := by
  obtain ⟨v, r, hsome, heq, _, _⟩ := topologicalSort_eq reg Hk
  rw [heq]
  refine (visitDepsWith_black reg (visitFuel reg (sortFuel reg))
    (fun nm vs rs vv rr st hh h1 h2 h3 h4 =>
      visitFuel_black reg Hk Hacyc (sortFuel reg) nm vs rs vv rr st hh h1 h2 h3 h4)
    (fun nm vs rs vv rr hh => (visitFuel_out reg Hk (sortFuel reg) nm vs rs vv rr hh).1.1)
    (mapKeys reg) [] [] v r [] hsome (List.Subset.refl _) ?_ ?_ (closedRes_nil reg)).2
  · intro n _
    exact List.chain'_singleton n
  · intro n hn
    simp at hn

theorem sorted_before (reg : List (String × Plugin))
    (Hk : ∀ e ∈ reg, (e.2).name = e.1) (Hnd : (mapKeys reg).Nodup) (Hacyc : Acyclic reg)
    {A B : Plugin} (hA : (A.name, A) ∈ reg) (hB : (B.name, B) ∈ reg)
    (hdep : A.name ∈ B.dependencies.getD []) :
    ∃ u1 u2 u3, topologicalSort reg = u1 ++ A :: u2 ++ B :: u3 := by
  have hperm := topologicalSort_perm reg Hk Hnd
  have hBmem : B ∈ topologicalSort reg :=
    hperm.mem_iff.mpr (List.mem_map.mpr ⟨(B.name, B), hB, rfl⟩)
  obtain ⟨l1, l2, hsplit⟩ := List.append_of_mem hBmem
  have hclosed := topologicalSort_closed reg Hk Hacyc
  have hgetA : mapGet reg A.name = some A := mapGet_of_mem_nodup reg A.name A hA Hnd
  have hAl1 : A ∈ l1 := hclosed l1 B l2 hsplit A.name hdep A hgetA
  obtain ⟨u1, u2, hsplitA⟩ := List.append_of_mem hAl1
  refine ⟨u1, u2, l2, ?_⟩
  rw [hsplit, hsplitA]

theorem runLifecycle_fst (behav : Plugin → Except String Unit) :
    ∀ l : List Plugin, (runLifecycle behav l).1 = l.map Plugin.name := by
  intro l
  induction l with
  | nil => rfl
  | cons p rest ih => simp [runLifecycle, ih]

theorem acyclic_of_rank (reg : List (String × Plugin)) (rank : String → Nat)
    (h : ∀ x y, depEdge reg x y → rank y < rank x) : Acyclic reg := by
  have step : ∀ a b, Relation.TransGen (depEdge reg) a b → rank b < rank a := by
    intro a b ht
    induction ht with
    | single h1 => exact h _ _ h1
    | tail ht h1 ih => exact lt_trans (h _ _ h1) ih
  intro n hn
  exact lt_irrefl _ (step n n hn)

theorem foldl_preserve {α β : Type} (P : α → Prop) (f : α → β → α)
    (h : ∀ a b, P a → P (f a b)) : ∀ (l : List β) (a : α), P a → P (l.foldl f a) := by
  intro l
  induction l with
  | nil => intro a ha; exact ha
  | cons x t ih => intro a ha; exact ih (f a x) (h a x ha)

theorem mem_mapSet {α : Type} (m : List (String × α)) (k : String) (v : α) :
    ∀ e ∈ mapSet m k v, e ∈ m ∨ e = (k, v) := by
  induction m with
  | nil => intro e he; simp [mapSet] at he; simp [he]
  | cons x rest ih =>
    obtain ⟨k1, v1⟩ := x
    intro e he
    by_cases hk : k1 = k
    · subst hk
      simp only [mapSet, if_pos rfl] at he
      rcases List.mem_cons.mp he with h | h
      · exact Or.inr h
      · exact Or.inl (List.mem_cons_of_mem _ h)
    · simp only [mapSet, if_neg hk] at he
      rcases List.mem_cons.mp he with h | h
      · exact Or.inl (h ▸ List.mem_cons_self _ _)
      · rcases ih e h with h1 | h1
        · exact Or.inl (List.mem_cons_of_mem _ h1)
        · exact Or.inr h1

theorem loadStep_nodup (d : PackageDecl) :
    ∀ reg, (mapKeys reg).Nodup → (mapKeys (loadStep reg d)).Nodup := by
  intro reg hnd
  unfold loadStep
  cases d.outcome with
  | failed msg => exact hnd
  | invalid => exact hnd
  | valid basePlugin =>
    cases d.instances with
    | none => exact mapKeys_mapSet_nodup reg _ _ hnd
    | some descriptors =>
      refine foldl_preserve (fun r => (mapKeys r).Nodup) _ ?_ descriptors reg hnd
      intro r oid hr
      cases oid with
      | none => exact hr
      | some instanceId => exact mapKeys_mapSet_nodup r _ _ hr

theorem loadAll_nodup (decls : List PackageDecl) : (mapKeys (loadAll decls)).Nodup := by
  unfold loadAll
  refine foldl_preserve (fun r => (mapKeys r).Nodup) loadStep ?_ decls [] (by simp [mapKeys])
  intro r d hr
  exact loadStep_nodup d r hr

theorem loadStep_keys (d : PackageDecl) :
    ∀ reg, (∀ e ∈ reg, (e.2 : Plugin).name = e.1) →
      ∀ e ∈ loadStep reg d, (e.2 : Plugin).name = e.1 := by
  intro reg hk
  unfold loadStep
  cases d.outcome with
  | failed msg => exact hk
  | invalid => exact hk
  | valid basePlugin =>
    cases d.instances with
    | none =>
      intro e he
      rcases mem_mapSet reg _ _ e he with h | h
      · exact hk e h
      · rw [h]
    | some descriptors =>
      refine foldl_preserve (fun r => ∀ e ∈ r, (e.2 : Plugin).name = e.1) _ ?_
        descriptors reg hk
      intro r oid hr
      cases oid with
      | none => exact hr
      | some instanceId =>
        intro e he
        rcases mem_mapSet r _ _ e he with h | h
        · exact hr e h
        · rw [h]

theorem loadAll_keys (decls : List PackageDecl) :
    ∀ e ∈ loadAll decls, (e.2 : Plugin).name = e.1 := by
  unfold loadAll
  refine foldl_preserve (fun r => ∀ e ∈ r, (e.2 : Plugin).name = e.1) loadStep ?_
    decls [] (by simp)
  intro r d hr
  exact loadStep_keys d r hr

/-- C3: for every tool call and context, `ToolExecutor.execute` resolves
normally and never raises: an unknown tool name yields a `success=false`
result describing the name, and a registered tool that throws yields a
`success=false` result with the error text in `output`. -/
theorem claim3_tool_executor_never_raises (tmap : List (String × ToolRT))
    (toolCall : ToolCall) (context : ToolContext) :
    (∃ r, executeTool tmap toolCall context = Except.ok r) ∧
    (mapGet tmap toolCall.name = none →
      executeTool tmap toolCall context =
        Except.ok { success := false, output := "Unknown tool: " ++ toolCall.name }) ∧
    (∀ tool msg, mapGet tmap toolCall.name = some tool →
      tool.behav toolCall.args context = Except.error msg →
      executeTool tmap toolCall context =
        Except.ok { success := false, output := "Tool error: " ++ msg }) := by
  refine ⟨executeTool_ok tmap toolCall context, ?_, ?_⟩
  · intro h
    simp [executeTool, h]
  · intro tool msg h hb
    simp [executeTool, h, hb]

/-- Witness for C3 on a concrete executor: one unknown call, one call to
a tool that throws `"bad"`. -/
theorem claim3_witness :
    executeTool tmapW callUnknown ctxTool =
      Except.ok { success := false, output := "Unknown tool: nope" } ∧
    executeTool tmapW callBoom ctxTool =
      Except.ok { success := false, output := "Tool error: bad" } :=
  ⟨(claim3_tool_executor_never_raises tmapW callUnknown ctxTool).2.1 rfl,
   (claim3_tool_executor_never_raises tmapW callBoom ctxTool).2.2 toolBoom "bad" rfl rfl⟩

/-- C7 fails as stated: a handler registered for the exact event name is
invoked with the payload only — it does not receive the event name.
With one handler `0` bound to `"ev"`, emitting payload `"pay"` invokes
it with argument list `["pay"]`, not `["ev", "pay"]`. -/
theorem claim7_counterexample :
    busEmit behav0 bus1 "ev" "pay" = Except.ok ([Invocation.mk 0 ["pay"]], []) ∧
    Invocation.mk 0 ["pay"] ≠ Invocation.mk 0 ["ev", "pay"] :=
  ⟨rfl, by decide⟩

/-- C7 (amended): `emit` invokes the exact-name handlers in registration
order, each receiving the payload, then the wildcard handlers, each
receiving the event name and the payload; a throwing handler is caught
per handler and delivery always reaches every remaining handler (the
trace never depends on handler behaviour); `on` appends to the stored
registration order; and after `off(event, h)` an emit of that event
never invokes `h` as an exact-name handler. -/
theorem claim7_amended (behav : Nat → List String → Except String Unit) (b : Bus)
    (event payload : String) :
    (∃ logs, busEmit behav b event payload =
      Except.ok
        ((((mapGet b.handlers event).getD []).map (fun h => Invocation.mk h [payload])
          ++ b.wildcardHandlers.map (fun h => Invocation.mk h [event, payload])), logs)) ∧
    (∀ h, mapGet (busOn b event h).handlers event =
      some (setAdd ((mapGet b.handlers event).getD []) h)) ∧
    (∀ h tr logs, busEmit behav (busOff b event h) event payload = Except.ok (tr, logs) →
      Invocation.mk h [payload] ∉ tr) := by
  refine ⟨busEmit_trace behav b event payload, ?_, ?_⟩
  · intro h
    simp only [busOn]
    exact mapGet_mapSet_self _ _ _
  · intro h tr logs hemit
    obtain ⟨logs2, htr⟩ := busEmit_trace behav (busOff b event h) event payload
    rw [hemit] at htr
    injection htr with h1
    injection h1 with htr2 hlogs
    subst htr2
    intro hmem
    rcases List.mem_append.mp hmem with hin | hin
    · obtain ⟨h2, hh2, heq2⟩ := List.mem_map.mp hin
      have hid : h2 = h := congrArg Invocation.hid heq2
      subst hid
      rw [busOff_handlers] at hh2
      unfold setDel at hh2
      have := List.of_mem_filter hh2
      simp at this
    · obtain ⟨h2, _, heq2⟩ := List.mem_map.mp hin
      have hargs : [event, payload] = [payload] := congrArg Invocation.args heq2
      simp at hargs

/-- Witness for C7 (amended) on the concrete one-handler bus. -/
theorem claim7_witness :
    (∃ logs, busEmit behav0 bus1 "ev" "pay" =
      Except.ok
        ((((mapGet bus1.handlers "ev").getD []).map (fun h => Invocation.mk h ["pay"])
          ++ bus1.wildcardHandlers.map (fun h => Invocation.mk h ["ev", "pay"])), logs)) ∧
    (∀ tr logs, busEmit behav0 (busOff bus1 "ev" 0) "ev" "pay" = Except.ok (tr, logs) →
      Invocation.mk 0 ["pay"] ∉ tr) :=
  ⟨(claim7_amended behav0 bus1 "ev" "pay").1,
   fun tr logs hemit => (claim7_amended behav0 bus1 "ev" "pay").2.2 0 tr logs hemit⟩

/-- C5 fails in its no-replacement half: loading two distinct valid
plugins that both carry the name `"dup"` leaves a single registry entry
holding the later plugin — the later load silently replaced the earlier
one. -/
theorem claim5_counterexample :
    loadAll declsDup = [("dup", dup2)] ∧ dup1 ≠ dup2 :=
  ⟨rfl, by decide⟩

/-- C5 (amended): at every point during and after `loadAll` the registry
keys are unique (it is a name-keyed map), but loading a plugin whose
name is already registered silently replaces the earlier entry, so the
registry keeps exactly the last plugin loaded under each name. -/
theorem claim5_amended :
    (∀ (decls : List PackageDecl) (k : Nat),
      (mapKeys (loadAll (List.take k decls))).Nodup) ∧
    (∀ (decls : List PackageDecl) (pkg : String) (p : Plugin),
      mapGet (loadAll (decls ++
        [{ packageName := pkg, outcome := ImportOutcome.valid p, instances := none }]))
        p.name = some p) := by
  refine ⟨fun decls k => loadAll_nodup (List.take k decls), ?_⟩
  intro decls pkg p
  unfold loadAll
  rw [List.foldl_append]
  simp only [List.foldl_cons, List.foldl_nil]
  unfold loadStep
  simp only []
  exact mapGet_mapSet_self _ _ _

/-- C8 fails as stated: with the update due and a configured state path,
when the batched reinstall-at-latest exits non-zero (nothing updated), a
fresh `lastUpdated` timestamp is still persisted. -/
theorem claim8_counterexample :
    (sync ["p"] optsU worldU).1.updated = [] ∧
    (sync ["p"] optsU worldU).2.updateInvoked = some ["p"] ∧
    (sync ["p"] optsU worldU).2.persisted = some 500 := by
  refine ⟨?_, ?_, ?_⟩ <;> rfl

/-- C8 (amended): whenever the auto-update path triggers and a state
path is configured, `sync` attempts to persist a fresh timestamp
regardless of whether the batched reinstall succeeded; a failing write
is only logged (nothing is persisted) and `sync` still returns its
result normally with `skippedUpdate = false`. -/
theorem claim8_amended (packageNames : List String) (options : SyncOptions)
    (w : PMWorld) (p : String)
    (hne : packageNames ≠ [])
    (hau : options.autoUpdate = some true)
    (hsp : options.statePath = some p)
    (hdue : shouldUpdate w options.statePath (options.updateIntervalHours.getD 24) = true) :
    (sync packageNames options w).2.writeAttempted = true ∧
    (w.writeFails = false → (sync packageNames options w).2.persisted = some w.now) ∧
    (w.writeFails = true → (sync packageNames options w).2.persisted = none) ∧
    (sync packageNames options w).1.skippedUpdate = false := by
  unfold sync
  rw [if_neg (by simpa using hne)]
  rw [hsp] at hdue
  simp only [hau, hsp, Option.getD_some, Option.isSome_some, hdue, if_true]
  refine ⟨trivial, ?_, ?_, trivial⟩
  · intro hw
    simp [writeUpdateState, hw]
  · intro hw
    simp [writeUpdateState, hw]

/-- Witness for C8 (amended): the concrete due-update world with a
failing batched update and a working write. -/
theorem claim8_witness :
    (sync ["p"] optsU worldU).2.writeAttempted = true ∧
    (sync ["p"] optsU worldU).2.persisted = some 500 ∧
    (sync ["p"] optsU worldU).1.skippedUpdate = false := by
  obtain ⟨h1, h2, _, h4⟩ := claim8_amended ["p"] optsU worldU "s"
    (by decide) rfl rfl (by rfl)
  exact ⟨h1, h2 rfl, h4⟩

/-- C9: `sync` skips work exactly when nothing is due — with zero
declared packages it returns all-empty lists with `skippedUpdate = true`
and issues no install invocation; with auto-update enabled and a
persisted timestamp newer than now minus the configured interval, the
update path does not run and `skippedUpdate = true` is reported. -/
theorem claim9_sync_skips :
    (∀ (options : SyncOptions) (w : PMWorld), sync [] options w =
      ({ installed := [], alreadyInstalled := [], failed := [], updated := [],
         skippedUpdate := true }, {})) ∧
    (∀ (packageNames : List String) (options : SyncOptions) (w : PMWorld)
       (p : String) (lu : Int),
      options.autoUpdate = some true → options.statePath = some p →
      w.stateExists = true → w.readState = Except.ok (some lu) →
      w.now - lu < max 0 (options.updateIntervalHours.getD 24) * 60 * 60 * 1000 →
      (sync packageNames options w).1.skippedUpdate = true ∧
      (sync packageNames options w).2.updateInvoked = none ∧
      (sync packageNames options w).2.persisted = none) := by
  constructor
  · intro options w
    rfl
  · intro packageNames options w p lu hau hsp hse hrs hlt
    have hsu : shouldUpdate w options.statePath (options.updateIntervalHours.getD 24)
        = false := by
      rw [hsp]
      unfold shouldUpdate
      rw [hse]
      simp only [Bool.not_true, Bool.false_eq_true, if_false, hrs]
      simp only [Option.getD_some, decide_eq_false_iff_not, not_le]
      exact hlt
    by_cases hempty : packageNames.isEmpty
    · unfold sync
      rw [if_pos hempty]
      exact ⟨rfl, rfl, rfl⟩
    · unfold sync
      rw [if_neg hempty]
      simp only [hau, Option.getD_some, if_true, hsu, Bool.false_eq_true, if_false]
      exact ⟨trivial, trivial, trivial⟩

/-- Witness for C9: zero packages, and a world whose persisted timestamp
(1000) is newer than now (1500) minus one hour. -/
theorem claim9_witness :
    sync [] opts9 world9 =
      ({ installed := [], alreadyInstalled := [], failed := [], updated := [],
         skippedUpdate := true }, {}) ∧
    ((sync ["p"] opts9 world9).1.skippedUpdate = true ∧
      (sync ["p"] opts9 world9).2.updateInvoked = none ∧
      (sync ["p"] opts9 world9).2.persisted = none) :=
  ⟨claim9_sync_skips.1 opts9 world9,
   claim9_sync_skips.2 ["p"] opts9 world9 "s" 1000 rfl rfl rfl rfl (by decide)⟩

/-- C4: for every definition, input, context, tool map, and any
behaviour of the model provider, tool implementations and event
handlers, `AgentLoop.run` resolves normally with a result, never
raising to its caller.  The result's usage is the sum of the usages of
the model responses received before completion or failure.  A thrown
failure is converted, not swallowed: the result's metadata carries an
error field exactly when one of the issued model calls threw — if the
error field is absent every issued call succeeded, and if it holds
`msg` then the output is empty, the loop issued exactly one call more
than it got responses, and `msg` is a message the model actually threw
on a request the loop made. -/
theorem claim4_run_never_raises (defn : AgentDefinition) (input : String)
    (context : AgentContext) (tmap : List (String × ToolRT))
    (chat : ChatRequest → Except String ChatResponse)
    (behav : Nat → List String → Except String Unit) (b : Bus) :
    ∃ r, (agentRun chat (busEmitE behav b) tmap defn input context).1 = Except.ok r ∧
      r.metadata.usage =
        sumUsage zeroUsage (agentRun chat (busEmitE behav b) tmap defn input context).2.2 ∧
      (r.metadata.error = none →
        (agentRun chat (busEmitE behav b) tmap defn input context).2.1 =
          (agentRun chat (busEmitE behav b) tmap defn input context).2.2.length) ∧
      (∀ msg, r.metadata.error = some msg →
        r.output = "" ∧
        (agentRun chat (busEmitE behav b) tmap defn input context).2.1 =
          (agentRun chat (busEmitE behav b) tmap defn input context).2.2.length + 1 ∧
        ∃ hist, chat { model := defn.model, messages := hist, tools := if (getDefinitions tmap defn.tools).length > 0 then some (getDefinitions tmap defn.tools) else none } = Except.error msg) := by
  simp only [agentRun, busEmitE_ok]
  obtain ⟨h1, h2, h3⟩ := loopGo_inv chat (busEmitE behav b) tmap context defn
    (getDefinitions tmap defn.tools) (defn.maxTurns.getD 10)
    (fun e => busEmitE_ok behav b e) (defn.maxTurns.getD 10)
    [{ role := "system", content := defn.systemPrompt }, { role := "user", content := input }]
    zeroUsage _ _ _ rfl
  exact ⟨_, rfl, h1, h2, h3⟩

/-- Witness for C4: a model whose every call rejects with `"boom"` —
the run still resolves, and the caught failure is converted into a
result whose metadata carries `error = some "boom"`, whose output is
empty, with one issued call and no responses, the message being exactly
what the model threw. -/
theorem claim4_witness :
    (agentRun chatFail (busEmitE behav0 emptyBus) [] defn10 "hi" ctxA).1 =
      Except.ok (errResult "boom" zeroUsage) ∧
    (errResult "boom" zeroUsage).metadata.error = some "boom" ∧
    (errResult "boom" zeroUsage).output = "" ∧
    (agentRun chatFail (busEmitE behav0 emptyBus) [] defn10 "hi" ctxA).2.1 =
      (agentRun chatFail (busEmitE behav0 emptyBus) [] defn10 "hi" ctxA).2.2.length + 1 ∧
    ∃ hist, chatFail { model := defn10.model, messages := hist, tools := none } =
      Except.error "boom" := by
  obtain ⟨r, h1, h2, h3, h4⟩ :=
    claim4_run_never_raises defn10 "hi" ctxA [] chatFail behav0 emptyBus
  have hconc : (agentRun chatFail (busEmitE behav0 emptyBus) [] defn10 "hi" ctxA).1 =
      Except.ok (errResult "boom" zeroUsage) := rfl
  rw [hconc] at h1
  injection h1 with hr
  obtain ⟨ho, hcnt, hhist⟩ := h4 "boom" (by rw [← hr]; rfl)
  rw [← hr] at ho
  exact ⟨hconc, rfl, ho, hcnt, hhist⟩

/-- C1: a run issues at most `maxTurns` (default 10) model calls for any
model behaviour; and when the model answers every call with finish
reason `"tool_calls"`, the run issues exactly `maxTurns` calls and
returns a non-error result flagged `maxTurnsReached = true` with
`turns = maxTurns` and the accumulated usage. -/
theorem claim1_turn_budget (defn : AgentDefinition) (input : String)
    (context : AgentContext) (tmap : List (String × ToolRT))
    (chat : ChatRequest → Except String ChatResponse)
    (behav : Nat → List String → Except String Unit) (b : Bus) :
    (agentRun chat (busEmitE behav b) tmap defn input context).2.1 ≤ defn.maxTurns.getD 10 ∧
    ((∀ req, ∃ resp, chat req = Except.ok resp ∧ resp.finishReason = "tool_calls") →
      (agentRun chat (busEmitE behav b) tmap defn input context).2.1 = defn.maxTurns.getD 10 ∧
      ∃ r, (agentRun chat (busEmitE behav b) tmap defn input context).1 = Except.ok r ∧
        r.metadata.maxTurnsReached = true ∧
        r.metadata.turns = some (defn.maxTurns.getD 10) ∧
        r.metadata.error = none ∧
        r.metadata.usage =
          sumUsage zeroUsage
            (agentRun chat (busEmitE behav b) tmap defn input context).2.2) := by
  constructor
  · simp only [agentRun, busEmitE_ok]
    exact loopGo_calls_le chat (busEmitE behav b) tmap context defn
      (getDefinitions tmap defn.tools) (defn.maxTurns.getD 10) (defn.maxTurns.getD 10)
      [{ role := "system", content := defn.systemPrompt },
       { role := "user", content := input }] zeroUsage
  · intro Hchat
    simp only [agentRun, busEmitE_ok]
    obtain ⟨h1, h2, h3⟩ := loopGo_always_toolcalls chat (busEmitE behav b) tmap context defn
      (getDefinitions tmap defn.tools) (defn.maxTurns.getD 10)
      (fun e => busEmitE_ok behav b e) Hchat (defn.maxTurns.getD 10)
      [{ role := "system", content := defn.systemPrompt },
       { role := "user", content := input }] zeroUsage _ _ _ rfl
    refine ⟨h1, _, rfl, ?_, ?_, ?_, ?_⟩
    · rw [h3]
    · rw [h3]
    · rw [h3]
    · rw [h3]

/-- Witness for C1: a model that always requests a tool call; with the
default budget the run makes exactly 10 model calls and returns a
flagged, non-error result. -/
theorem claim1_witness :
    (∀ req, ∃ resp, chatToolX req = Except.ok resp ∧ resp.finishReason = "tool_calls") ∧
    ((agentRun chatToolX (busEmitE behav0 emptyBus) [] defn10 "hi" ctxA).2.1 = 10 ∧
      ∃ r, (agentRun chatToolX (busEmitE behav0 emptyBus) [] defn10 "hi" ctxA).1 =
          Except.ok r ∧
        r.metadata.maxTurnsReached = true ∧
        r.metadata.turns = some 10 ∧
        r.metadata.error = none ∧
        r.metadata.usage =
          sumUsage zeroUsage
            (agentRun chatToolX (busEmitE behav0 emptyBus) [] defn10 "hi" ctxA).2.2) :=
  ⟨fun _ => ⟨respToolX, rfl, rfl⟩,
   (claim1_turn_budget defn10 "hi" ctxA [] chatToolX behav0 emptyBus).2
     (fun _ => ⟨respToolX, rfl, rfl⟩)⟩

/-- C6 fails as stated: with `maxTurns = 1` and a model whose single
tool-call response is an assistant message with content `"x"`, the run
ends flagged `maxTurnsReached = true` but its output is `"x"`, not the
empty string — the backward scan finds the tool-call assistant
message. -/
theorem claim6_counterexample :
    agentRun chatToolX (busEmitE behav0 emptyBus) [] defn6 "hi" ctxA =
      (Except.ok ⟨"x", ⟨⟨1, 2, 3⟩, some 1, true, none⟩⟩, 1, [respToolX]) ∧
    "x" ≠ "" :=
  ⟨rfl, by decide⟩

/-- C6 (amended): with `maxTurns = 1` and a model whose first response
is a tool-call-requesting assistant message, `run()` returns
`maxTurnsReached = true`, `turns = 1`, the first response's usage, and
as output the content of that assistant message — which is empty exactly
when the model sent no text alongside its tool calls. -/
theorem claim6_amended (defn : AgentDefinition) (input : String) (context : AgentContext)
    (tmap : List (String × ToolRT)) (chat : ChatRequest → Except String ChatResponse)
    (behav : Nat → List String → Except String Unit) (b : Bus) (resp : ChatResponse)
    (hmax : defn.maxTurns = some 1)
    (hchat : chat { model := defn.model, messages := [{ role := "system", content := defn.systemPrompt }, { role := "user", content := input }], tools := if (getDefinitions tmap defn.tools).length > 0 then some (getDefinitions tmap defn.tools) else none } = Except.ok resp)
    (hfin : resp.finishReason = "tool_calls")
    (hrole : resp.message.role = "assistant") :
    agentRun chat (busEmitE behav b) tmap defn input context =
      (Except.ok ⟨resp.message.content, ⟨addUsage zeroUsage resp.usage, some 1, true, none⟩⟩,
       1, [resp]) := by
  obtain ⟨extra, hrt, hroles⟩ := runToolCalls_ok (busEmitE behav b)
    (fun e => busEmitE_ok behav b e) tmap context (resp.message.toolCalls.getD [])
    ([{ role := "system", content := defn.systemPrompt },
      { role := "user", content := input }] ++ [resp.message])
  simp only [agentRun, busEmitE_ok, hmax, Option.getD_some]
  simp only [loopGo, hchat, busEmitE_ok]
  rw [if_neg (by simp [hfin])]
  rw [hrt]
  simp only [loopGo, busEmitE_ok]
  rw [lastAssistantContent_append_tools _ extra hroles,
    lastAssistantContent_snoc_assistant _ _ hrole]

/-- Witness for C6 (amended) on the concrete one-turn tool-calling
model, whose assistant message carries content `"x"`. -/
theorem claim6_witness :
    agentRun chatToolX (busEmitE behav0 emptyBus) [] defn6 "hi" ctxA =
      (Except.ok ⟨"x", ⟨⟨1, 2, 3⟩, some 1, true, none⟩⟩, 1, [respToolX]) :=
  claim6_amended defn6 "hi" ctxA [] chatToolX behav0 emptyBus respToolX rfl rfl rfl rfl

/-- C2: on a registry whose name-keyed entries hold plugins of the same
name, with unique names and an acyclic declared dependency graph, if `B`
declares a dependency on `A` then `initAll` calls `A.init` strictly
before `B.init`, `destroyAll` uses exactly the reverse of the
initialization order, and therefore calls `B.destroy` strictly before
`A.destroy` — for any init/destroy behaviours. -/
theorem claim2_dependency_order (reg : List (String × Plugin))
    (behavI behavD : Plugin → Except String Unit) (A B : Plugin)
    (Hk : ∀ e ∈ reg, (e.2).name = e.1) (Hnd : (mapKeys reg).Nodup) (Hacyc : Acyclic reg)
    (hA : (A.name, A) ∈ reg) (hB : (B.name, B) ∈ reg)
    (hdep : A.name ∈ B.dependencies.getD []) :
    (∃ u1 u2 u3, (initAll behavI reg).1 = u1 ++ A.name :: u2 ++ B.name :: u3) ∧
    (destroyAll behavD reg).1 = ((initAll behavI reg).1).reverse ∧
    (∃ w1 w2 w3, (destroyAll behavD reg).1 = w1 ++ B.name :: w2 ++ A.name :: w3) := by
  obtain ⟨u1, u2, u3, hsplit⟩ := sorted_before reg Hk Hnd Hacyc hA hB hdep
  have hinit : (initAll behavI reg).1 = (topologicalSort reg).map Plugin.name :=
    runLifecycle_fst behavI (topologicalSort reg)
  have hdest : (destroyAll behavD reg).1 =
      ((topologicalSort reg).reverse).map Plugin.name :=
    runLifecycle_fst behavD (topologicalSort reg).reverse
  refine ⟨⟨u1.map Plugin.name, u2.map Plugin.name, u3.map Plugin.name, ?_⟩, ?_, ?_⟩
  · rw [hinit, hsplit]
    simp
  · rw [hdest, hinit, List.map_reverse]
  · refine ⟨u3.reverse.map Plugin.name, u2.reverse.map Plugin.name,
      u1.reverse.map Plugin.name, ?_⟩
    rw [hdest, hsplit]
    simp

/-- Witness for C2: plugins `a` and `b` where `b` declares a dependency
on `a`; init order has `a` before `b`, destroy order is the reverse. -/
theorem claim2_witness :
    (∃ u1 u2 u3, (initAll (fun _ => Except.ok ()) regW).1 =
      u1 ++ "a" :: u2 ++ "b" :: u3) ∧
    (destroyAll (fun _ => Except.ok ()) regW).1 =
      ((initAll (fun _ => Except.ok ()) regW).1).reverse ∧
    (∃ w1 w2 w3, (destroyAll (fun _ => Except.ok ()) regW).1 =
      w1 ++ "b" :: w2 ++ "a" :: w3) := by
  have hacyc : Acyclic regW := by
    apply acyclic_of_rank regW (fun s => if s = "b" then 1 else 0)
    intro x y h
    by_cases hxa : "a" = x
    · have hget : mapGet regW x = some pa := by rw [← hxa]; rfl
      simp only [depEdge, hget] at h
      simp [pa] at h
    · by_cases hxb : "b" = x
      · have hget : mapGet regW x = some pb := by rw [← hxb]; rfl
        simp only [depEdge, hget] at h
        simp only [pb, Option.getD_some, List.mem_singleton] at h
        subst h
        subst hxb
        decide
      · have hget : mapGet regW x = none := by
          simp [mapGet, regW, hxa, hxb]
        simp only [depEdge, hget] at h
  exact claim2_dependency_order regW (fun _ => Except.ok ()) (fun _ => Except.ok ())
    pa pb (by decide) (by decide) hacyc (by decide) (by decide) (by decide)

/-- C10: for every finite registry with unique name-keyed entries —
including registries whose declared dependencies form a cycle or name
plugins absent from the registry — the depth-first dependency-order
computation completes within its fuel and yields each registered plugin
exactly once, so `initAll` calls each plugin's init exactly once and
`destroyAll` each destroy exactly once, for any lifecycle behaviours. -/
theorem claim10_sort_total (reg : List (String × Plugin))
    (behavI behavD : Plugin → Except String Unit)
    (Hk : ∀ e ∈ reg, (e.2).name = e.1) (Hnd : (mapKeys reg).Nodup) :
    (∃ out, visitDepsWith (visitFuel reg (sortFuel reg)) (mapKeys reg) [] [] = some out) ∧
    (topologicalSort reg).Perm (reg.map (fun e => e.2)) ∧
    ((initAll behavI reg).1).Perm (mapKeys reg) ∧
    ((destroyAll behavD reg).1).Perm (mapKeys reg) := by
  obtain ⟨v, r, hsome, heq, _, _⟩ := topologicalSort_eq reg Hk
  have hperm := topologicalSort_perm reg Hk Hnd
  have hmm : (reg.map (fun e => e.2)).map Plugin.name = mapKeys reg := by
    rw [List.map_map]
    exact List.map_congr_left (fun e he => Hk e he)
  have hsortperm : ((topologicalSort reg).map Plugin.name).Perm (mapKeys reg) := by
    have := hperm.map Plugin.name
    rw [hmm] at this
    exact this
  have hinitperm : ((initAll behavI reg).1).Perm (mapKeys reg) := by
    rw [initAll, runLifecycle_fst]
    exact hsortperm
  refine ⟨⟨(v, r), hsome⟩, hperm, hinitperm, ?_⟩
  rw [destroyAll, runLifecycle_fst, List.map_reverse]
  exact ((topologicalSort reg).map Plugin.name).reverse_perm.trans hsortperm

/-- Witness for C10: a registry whose dependencies form the cycle
`a -> b -> a` and also name a plugin `c` that was never registered. -/
theorem claim10_witness :
    (∃ out, visitDepsWith (visitFuel regCyc (sortFuel regCyc)) (mapKeys regCyc) [] []
      = some out) ∧
    (topologicalSort regCyc).Perm (regCyc.map (fun e => e.2)) ∧
    ((initAll (fun _ => Except.ok ()) regCyc).1).Perm (mapKeys regCyc) ∧
    ((destroyAll (fun _ => Except.ok ()) regCyc).1).Perm (mapKeys regCyc) :=
  claim10_sort_total regCyc (fun _ => Except.ok ()) (fun _ => Except.ok ())
    (by decide) (by decide)
